import Mathlib

/-!
# RoundRobin: a verification development

Shallow embedding of `include/round_robin/round_robin.hpp` (class `rr::RoundRobin<T>`).

Modelling conventions

* `std::forward_list<Item>` is a `List` of nodes, head first.  Every node carries the
  address it was allocated at (`Item.addr`); the address is the identity of the node and
  is what a list iterator holds.  Iterators of a `forward_list` stay valid under
  `push_front` and under `erase_after` of another node, which is exactly what an
  address does in this model.
* `current_` is an `Iterator`: either `before_begin()` or the address of a node.
  `end()` is the absence of a node (`none` in `std_next`).
* `heap_` is not a member of the class: it is the free store, reduced to the next
  address that `push_front` obtains for a new node.
* `size_t` is a 64 bit unsigned integer: `++count_` and `--count_` wrap at `SIZE_MAX`.
* Two containers that take part in a move live on the same free store.  A move hands the
  nodes of the list over and leaves the source list empty; iterators to these nodes stay
  valid and then refer to nodes of the destination (`remove_current_shared`).
* A member function returns its result together with the state it leaves behind, so
  that the state after a `throw` is visible.  `T*` is `Option (Nat × T)`: `none` is
  `nullptr`, `some (a, v)` is the address of the node holding the value and the value
  found there when the call returns.
-/

namespace rr

/-- The largest value of `size_t`. -/
def SIZE_MAX : Nat := 2 ^ 64 - 1

/-- The three `throw std::runtime_error(...)` sites of the class. -/
inductive RuntimeError where
  /-- thrown by `next()` -/
  | emptyNext
  /-- thrown by `remove_current()` on `items_.empty()` -/
  | emptyRemove
  /-- thrown by `remove_current()` on `std::next(current_) == items_.end()` -/
  | invalidCurrent
  deriving DecidableEq, Repr

deriving instance DecidableEq for Except

/-- The message each exception is constructed with. -/
def RuntimeError.what : RuntimeError → String
  | .emptyNext => "Attempted to get next item from empty RoundRobin"
  | .emptyRemove => "Attempted to remove from empty RoundRobin"
  | .invalidCurrent => "Invalid current position in RoundRobin"

/-- The `struct Item`: the stored value and its visited flag, in the list node at `addr`. -/
structure Item (α : Type) where
  addr : Nat
  value : α
  visited : Bool
  deriving DecidableEq, Repr

/-- The type `std::forward_list<Item>::iterator`, as far as `current_` uses it. -/
inductive Iterator where
  /-- the iterator `items_.before_begin()` -/
  | before_begin
  /-- an iterator to the node at this address -/
  | node (addr : Nat)
  deriving DecidableEq, Repr

/-- The `class RoundRobin<T>`: the members `items_`, `current_`, `count_`, and the free store. -/
structure RoundRobin (α : Type) where
  items_ : List (Item α)
  current_ : Iterator
  count_ : Nat
  heap_ : Nat
  deriving DecidableEq, Repr

/-- The increment `++count_` on a `size_t`. -/
def incr (c : Nat) : Nat := if c = SIZE_MAX then 0 else c + 1

/-- The decrement `--count_` on a `size_t`. -/
def decr (c : Nat) : Nat := if c = 0 then SIZE_MAX else c - 1

/-- The call `std::next(pos)` in the list: the node after `pos`, `none` for `end()`.  A position
that names no node of the list has no successor. -/
def std_next {α : Type} : List (Item α) → Iterator → Option (Item α)
  | items, .before_begin => items.head?
  | [], .node _ => none
  | it :: rest, .node a => if it.addr = a then rest.head? else std_next rest (.node a)

/-- The call `items_.erase_after(pos)`: unlink the node after `pos`. -/
def erase_after {α : Type} : List (Item α) → Iterator → List (Item α)
  | items, .before_begin => items.tail
  | [], .node _ => []
  | it :: rest, .node a =>
    if it.addr = a then it :: rest.tail else it :: erase_after rest (.node a)

/-- The addresses of the nodes of a list, head first. -/
def addrs {α : Type} (items : List (Item α)) : List Nat := items.map Item.addr

/-- The stored values of a list, head first. -/
def values {α : Type} (items : List (Item α)) : List α := items.map Item.value

/-- The item with its flag set, as `it->visited = true` leaves it. -/
def Item.mark {α : Type} (it : Item α) : Item α := { it with visited := true }

/-- The iterator that `prev` holds after the scan has walked over `pre`. -/
def lastNode {α : Type} (prev : Iterator) : List (Item α) → Iterator
  | [] => prev
  | it :: rest => lastNode (.node it.addr) rest

namespace RoundRobin

variable {α : Type}

/-- The member `all_visited()`: the loop returns false at the first unvisited item. -/
def all_visited : List (Item α) → Bool
  | [] => true
  | item :: rest => if !item.visited then false else all_visited rest

/-- The member `reset_visited()`: every flag is set to false. -/
def reset_visited (items : List (Item α)) : List (Item α) :=
  items.map fun item => { item with visited := false }

/-- The default constructor `RoundRobin()`, on a free store whose next address is `heap`. -/
def new (heap : Nat) : RoundRobin α :=
  { items_ := [], current_ := .before_begin, count_ := 0, heap_ := heap }

/-- The member `add(item)`: `items_.push_front(Item(item)); ++count_;`.  The new node is unvisited. -/
def add (s : RoundRobin α) (item : α) : RoundRobin α :=
  { s with
    items_ := { addr := s.heap_, value := item, visited := false } :: s.items_
    count_ := incr s.count_
    heap_ := s.heap_ + 1 }

/-- The `for` loop of `try_next()`, started at iterator `it` with `prev` before it.
`some (items, cur, p)`: the loop returned `p` from inside, leaving the list as `items`
and `current_ = cur`.  `none`: the loop ran to `end()`. -/
def scan (prev : Iterator) : List (Item α) → Option (List (Item α) × Iterator × (Nat × α))
  | [] => none
  | it :: rest =>
    if !it.visited then
      some ({ it with visited := true } :: rest, prev, (it.addr, it.value))
    else
      match scan (.node it.addr) rest with
      | none => none
      | some (rest', cur, p) => some (it :: rest', cur, p)

/-- The member `try_next()`: the empty check, the conditional reset, the scan, and the
fallback after the loop. -/
def try_next (s : RoundRobin α) : Option (Nat × α) × RoundRobin α :=
  if s.items_.isEmpty then
    (none, { s with current_ := .before_begin })
  else
    let items := if all_visited s.items_ then reset_visited s.items_ else s.items_
    match scan .before_begin items with
    | some (items', cur, p) => (some p, { s with items_ := items', current_ := cur })
    | none =>
      -- "Should never reach here": current_ = before_begin, return &items_.front().value
      (items.head?.map fun front => (front.addr, front.value),
        { s with items_ := items, current_ := .before_begin })

/-- The member `next()`: `try_next()`, throwing on `nullptr`. -/
def next (s : RoundRobin α) : Except RuntimeError (Nat × α) × RoundRobin α :=
  match try_next s with
  | (none, s') => (.error .emptyNext, s')
  | (some p, s') => (.ok p, s')

/-- The member `remove_current()`: the two checks, then `erase_after`, `--count_` and the
reset of `current_` when the list has become empty. -/
def remove_current (s : RoundRobin α) : Except RuntimeError Unit × RoundRobin α :=
  if s.items_.isEmpty then
    (.error .emptyRemove, s)
  else
    match std_next s.items_ s.current_ with
    | none => (.error .invalidCurrent, s)
    | some _ =>
      let items := erase_after s.items_ s.current_
      (.ok (),
        { s with
          items_ := items
          count_ := decr s.count_
          current_ := if items.isEmpty then .before_begin else s.current_ })

/-- The member `empty()`. -/
def empty (s : RoundRobin α) : Bool := s.count_ == 0

/-- The member `size()`. -/
def size (s : RoundRobin α) : Nat := s.count_

/-! ### Vocabulary of the statements -/

/-- A run of `add` calls, in the order of the list. -/
def addAll (s : RoundRobin α) : List α → RoundRobin α
  | [] => s
  | v :: vs => addAll (add s v) vs

/-- The state after a run of fetches; `true` stands for a call of `next()`, `false` for a
call of `try_next()`. -/
def fetchCalls (s : RoundRobin α) : List Bool → RoundRobin α
  | [] => s
  | true :: cs => fetchCalls (next s).2 cs
  | false :: cs => fetchCalls (try_next s).2 cs

/-- The results of `n` consecutive calls of `try_next()`. -/
def fetches : Nat → RoundRobin α → List (Option (Nat × α))
  | 0, _ => []
  | n + 1, s => (try_next s).1 :: fetches n (try_next s).2

/-- The state after `n` consecutive calls of `try_next()`. -/
def afterFetches : Nat → RoundRobin α → RoundRobin α
  | 0, s => s
  | n + 1, s => afterFetches n (try_next s).2

/-- The nodes that a run of `add` calls allocates from address `h` on, oldest first. -/
def nodes (h : Nat) : List α → List (Item α)
  | [] => []
  | v :: vs => { addr := h, value := v, visited := false } :: nodes (h + 1) vs

/-- The list `l` with its first `j` items marked visited. -/
def marked (j : Nat) (l : List (Item α)) : List (Item α) :=
  (l.take j).map Item.mark ++ l.drop j

/-- What a fetch hands out for an item: the address of its node and its value. -/
def ptr (it : Item α) : Nat × α := (it.addr, it.value)

/-- A fetch by either member function: `next()` when `viaNext` is true, `try_next()`
otherwise.  `none` is the `nullptr` of `try_next()` and the exception of `next()`. -/
def fetch (viaNext : Bool) (s : RoundRobin α) : Option (Nat × α) × RoundRobin α :=
  if viaNext then
    (match (next s).1 with
      | .ok p => some p
      | .error _ => none, (next s).2)
  else try_next s

/-- A call of one of the public member functions that change the container. -/
inductive Op (α : Type) where
  | add (v : α)
  | try_next
  | next
  | remove_current

/-- The state a call leaves behind (also when it throws). -/
def step (s : RoundRobin α) : Op α → RoundRobin α
  | .add v => add s v
  | .try_next => (try_next s).2
  | .next => (next s).2
  | .remove_current => (remove_current s).2

/-- The state after a sequence of calls. -/
def run (s : RoundRobin α) : List (Op α) → RoundRobin α
  | [] => s
  | op :: ops => run (step s op) ops

/-- A container in the middle of a cycle, as left by `add(10); try_next(); add(20);
add(30); next();` on a new container: 30 and 10 are visited, 20 is not. -/
def sample : RoundRobin Nat :=
  { items_ := [⟨2, 30, true⟩, ⟨1, 20, false⟩, ⟨0, 10, true⟩]
    current_ := .before_begin
    count_ := 3
    heap_ := 3 }

/-- The loop `while (!rr.empty()) { rr.try_next(); rr.remove_current(); }`, with `fuel`
bounding the number of iterations.  `none`: the fuel ran out.  `some (.error e)`: a
`remove_current()` threw `e`, which leaves the loop.  `some (.ok (rs, s))`: the loop
condition became false in state `s`, after `rs.length` iterations whose `try_next()` calls
returned `rs`. -/
def drain : Nat → RoundRobin α →
    Option (Except RuntimeError (List (Option (Nat × α)) × RoundRobin α))
  | 0, s => if empty s then some (.ok ([], s)) else none
  | fuel + 1, s =>
    if empty s then some (.ok ([], s))
    else
      match remove_current (try_next s).2 with
      | (.error e, _) => some (.error e)
      | (.ok (), s') =>
        match drain fuel s' with
        | some (.ok (rs, sf)) => some (.ok ((try_next s).1 :: rs, sf))
        | other => other

/-- The unvisited items of a list, head first. -/
def unvisited (items : List (Item α)) : List (Item α) :=
  items.filter fun it => !it.visited

/-- What happens to the elements during a call, as far as their flags are concerned. -/
inductive Event where
  /-- the call of `push_front` made the node at this address -/
  | inserted (a : Nat)
  /-- the member `reset_visited()` ran -/
  | cleared
  /-- a fetch returned the node at this address -/
  | returned (a : Nat)
  deriving DecidableEq, Repr

/-- The events of a fetch in state `s`, in the order they happen: `reset_visited()` runs
when the list is not empty and `all_visited()` holds; then an element is returned, unless
the result is `nullptr`. -/
def fetchEvents (s : RoundRobin α) : List Event :=
  (if !s.items_.isEmpty && all_visited s.items_ then [Event.cleared] else []) ++
    (match (try_next s).1 with
      | some p => [Event.returned p.1]
      | none => [])

/-- The events of a call in state `s`, in the order they happen. -/
def events (s : RoundRobin α) : Op α → List Event
  | .add _ => [Event.inserted s.heap_]
  | .try_next => fetchEvents s
  | .next => fetchEvents s
  | .remove_current => []

/-- A sequence of calls from state `s`, whose history so far is `h` (latest event
first): the final state and the history up to it. -/
def runLog (s : RoundRobin α) (h : List Event) : List (Op α) → RoundRobin α × List Event
  | [] => (s, h)
  | op :: ops => runLog (step s op) ((events s op).reverse ++ h) ops

/-- Whether the node at `a` has been returned by a fetch since the later of its insertion
and the most recent clearing of the flags.  The history has the latest event first. -/
def returnedSince (a : Nat) : List Event → Bool
  | [] => false
  | .returned b :: h => a == b || returnedSince a h
  | .cleared :: _ => false
  | .inserted b :: h => if a = b then false else returnedSince a h

/-- The nodes returned since the most recent clearing of the flags, latest first. -/
def sinceCleared : List Event → List Nat
  | [] => []
  | .returned a :: h => a :: sinceCleared h
  | .cleared :: _ => []
  | .inserted _ :: h => sinceCleared h

/-- The history cut at the clearings: for each stretch without a clearing, the nodes
returned in it, latest first. -/
def segments : List Event → List (List Nat)
  | [] => [[]]
  | .returned a :: h => (a :: (segments h).headD []) :: (segments h).tail
  | .cleared :: h => [] :: segments h
  | .inserted _ :: h => segments h

/-- What a state and the history that led to it have to do with each other. -/
structure Hist (s : RoundRobin α) (h : List Event) : Prop where
  nodup : (addrs s.items_).Nodup
  fresh : ∀ a ∈ addrs s.items_, a < s.heap_
  flag : ∀ it ∈ s.items_, it.visited = returnedSince it.addr h
  once : ∀ seg ∈ segments h, seg.Nodup
  seen : ∀ a ∈ sinceCleared h, a < s.heap_ ∧ ∀ it ∈ s.items_, it.addr = a → it.visited = true

/-- The move constructor `RoundRobin(RoundRobin&& other)`: the container it constructs and
what it leaves of `other`.  The expression `std::move(other.items_)` hands the nodes of
the list over and leaves `other.items_` empty; `other.count_` is set to 0; `other.current_`
is not assigned.  Both containers live on the same free store. -/
def move_construct (other : RoundRobin α) : RoundRobin α × RoundRobin α :=
  ({ items_ := other.items_, current_ := .before_begin, count_ := other.count_,
     heap_ := other.heap_ },
   { other with items_ := [], count_ := 0 })

/-- The move assignment `self = std::move(other)` between two different containers (for
`this == &other` the operator does nothing): `self` as it is afterwards, and what is left
of `other`.  The nodes `self` held before are destroyed.  The free store the two share has
handed out every address below the larger of the two `heap_`. -/
def move_assign (self other : RoundRobin α) : RoundRobin α × RoundRobin α :=
  ({ items_ := other.items_, current_ := .before_begin, count_ := other.count_,
     heap_ := max self.heap_ other.heap_ },
   { other with items_ := [], count_ := 0, heap_ := max self.heap_ other.heap_ })

/-- The call `self.remove_current()` while a second container `other` lives on the same
free store: the result, `self` and `other` afterwards.  List iterators stay valid when a
list is moved and then refer to the nodes in their new list, so `current_` of a moved-from
container may be a node of `other.items_`; `std::next` and `erase_after` follow the links
of that node, in whichever list it is.  (A node that is in neither list has been freed:
the model gives it no successor.) -/
def remove_current_shared (self other : RoundRobin α) :
    Except RuntimeError Unit × RoundRobin α × RoundRobin α :=
  if self.items_.isEmpty then
    (.error .emptyRemove, self, other)
  else
    match self.current_ with
    | .before_begin => ((remove_current self).1, (remove_current self).2, other)
    | .node a =>
      if a ∈ addrs self.items_ then
        ((remove_current self).1, (remove_current self).2, other)
      else
        match std_next other.items_ (.node a) with
        | none => (.error .invalidCurrent, self, other)
        | some _ =>
          -- self.items_ is not empty: current_ stays
          (.ok (),
            { self with count_ := decr self.count_ },
            { other with items_ := erase_after other.items_ (.node a) })

/-- The container `a` after `a.add(1); a.add(2); a.add(3); a.next(); a.next();`. -/
def fetchedTwice : RoundRobin Nat := (next (next (addAll (new 0) [1, 2, 3])).2).2

/-- The call `a.remove_current()` after `RoundRobin<int> b(std::move(a)); a.add(9);` with
`a` as in `fetchedTwice`: the result, `a` and `b` afterwards. -/
def movedFromRemove : Except RuntimeError Unit × RoundRobin Nat × RoundRobin Nat :=
  remove_current_shared (add (move_construct fetchedTwice).2 9) (move_construct fetchedTwice).1

/-- The values that `n` consecutive calls of `next()` return, `none` for a call that
throws. -/
def nextValues : Nat → RoundRobin α → List (Option α)
  | 0, _ => []
  | n + 1, s =>
    (match (next s).1 with
      | .ok p => some p.2
      | .error _ => none) :: nextValues n (next s).2

/-- What worker `w` receives when calls that are made one after the other are dealt out
to workers: call `i` has the result `results[i]` and is made by worker `assign[i]`. -/
def received (results : List (Option α)) (assign : List Nat) (w : Nat) : List α :=
  ((results.zip assign).filter fun ra => ra.2 == w).filterMap fun ra => ra.1

/-- The container of the test fixture: A, B and C added in that order. -/
def abc : RoundRobin String := add (add (add (new 0) "A") "B") "C"

/-- The assignment that lets the three workers take turns: call `i` is made by worker
`i mod 3`. -/
def inTurn : List Nat := (List.range 30).map fun i => i % 3

/-- Writing through the reference that a fetch has returned: the value held by the node at
`a` becomes `v`. -/
def store (a : Nat) (v : α) (s : RoundRobin α) : RoundRobin α :=
  { s with
    items_ := s.items_.map fun it => if it.addr = a then { it with value := v } else it }

/-- The body of the loop of the test `VectorProcessing`, once:
`auto& current_vec = vec_rr.next();` and, when the vector is not empty, its last integer is
appended to `processed` and popped, and `remove_current()` is called if that has emptied
the vector.  The result is what was appended to `processed` and the state afterwards, or
the exception that escapes. -/
def processStep (s : RoundRobin (List Int)) :
    Except RuntimeError (List Int × RoundRobin (List Int)) :=
  match next s with
  | (.error e, _) => .error e
  | (.ok (a, v), s1) =>
    match v.getLast? with
    | none => .ok ([], s1)
    | some z =>
      if v.dropLast.isEmpty then
        match remove_current (store a v.dropLast s1) with
        | (.error e, _) => .error e
        | (.ok (), s3) => .ok ([z], s3)
      else .ok ([z], store a v.dropLast s1)

/-- The loop `while (!vec_rr.empty()) { ... }` of the test `VectorProcessing`, with `fuel`
bounding the number of iterations.  `none`: the fuel ran out.  `some (.error e)`: the
exception `e` left the loop.  `some (.ok (processed, n, s))`: the loop condition became
false in state `s` after `n` iterations that appended `processed`. -/
def processLoop : Nat → RoundRobin (List Int) →
    Option (Except RuntimeError (List Int × Nat × RoundRobin (List Int)))
  | 0, s => if empty s then some (.ok ([], 0, s)) else none
  | fuel + 1, s =>
    if empty s then some (.ok ([], 0, s))
    else
      match processStep s with
      | .error e => some (.error e)
      | .ok (out, s') =>
        match processLoop fuel s' with
        | some (.ok (processed, n, sf)) => some (.ok (out ++ processed, n + 1, sf))
        | other => other

/-- The number of integers held by the vectors of a list. -/
def total (items : List (Item (List Int))) : Nat :=
  ((values items).map List.length).sum

/-- The states a container can be in: distinct node addresses, all of them handed out by
the free store already, `current_` at `before_begin()` or at a node of the list, and
`count_` equal to the number of nodes. -/
structure WF (s : RoundRobin α) : Prop where
  nodup : (addrs s.items_).Nodup
  fresh : ∀ a ∈ addrs s.items_, a < s.heap_
  current : s.current_ = .before_begin ∨ ∃ a, s.current_ = .node a ∧ a ∈ addrs s.items_
  count : s.count_ = s.items_.length

end RoundRobin

end rr

/-! ## Lemmas on the list primitives -/

namespace rr

open RoundRobin

variable {α : Type}

theorem all_visited_eq_true (l : List (Item α)) :
    all_visited l = true ↔ ∀ it ∈ l, it.visited = true := by
  induction l with
  | nil => simp [all_visited]
  | cons x xs ih =>
    cases hx : x.visited <;> simp [all_visited, hx, ih]

theorem all_visited_eq_false (l : List (Item α)) (h : all_visited l = false) :
    ∃ pre x post, l = pre ++ x :: post ∧ (∀ it ∈ pre, it.visited = true) ∧
      x.visited = false := by
  induction l with
  | nil => simp [all_visited] at h
  | cons y ys ih =>
    cases hy : y.visited with
    | false => exact ⟨[], y, ys, rfl, by simp, hy⟩
    | true =>
      simp [all_visited, hy] at h
      obtain ⟨pre, x, post, rfl, hpre, hx⟩ := ih h
      refine ⟨y :: pre, x, post, rfl, ?_, hx⟩
      intro it hit
      rcases List.mem_cons.1 hit with rfl | hit
      · exact hy
      · exact hpre it hit

theorem all_visited_reset_cons (x : Item α) (xs : List (Item α)) :
    all_visited (reset_visited (x :: xs)) = false := by
  simp [reset_visited, all_visited]

theorem scan_append (prev : Iterator) (pre : List (Item α)) (x : Item α)
    (post : List (Item α)) (hpre : ∀ it ∈ pre, it.visited = true)
    (hx : x.visited = false) :
    scan prev (pre ++ x :: post)
      = some (pre ++ x.mark :: post, lastNode prev pre, (x.addr, x.value)) := by
  induction pre generalizing prev with
  | nil => simp [scan, hx, lastNode, Item.mark]
  | cons y ys ih =>
    have hy : y.visited = true := hpre y (List.mem_cons_self _ _)
    have hys : ∀ it ∈ ys, it.visited = true := fun it h => hpre it (List.mem_cons_of_mem _ h)
    simp [scan, hy, ih _ hys, lastNode]

theorem lastNode_concat (prev : Iterator) (pre : List (Item α)) (q : Item α) :
    lastNode prev (pre ++ [q]) = .node q.addr := by
  induction pre generalizing prev with
  | nil => simp [lastNode]
  | cons y ys ih => simp [lastNode, ih]

theorem std_next_after (pre : List (Item α)) (q x : Item α) (post : List (Item α))
    (hq : q.addr ∉ addrs pre) :
    std_next (pre ++ q :: x :: post) (.node q.addr) = some x := by
  induction pre with
  | nil => simp [std_next]
  | cons y ys ih =>
    simp [addrs] at hq
    have : ¬ y.addr = q.addr := fun h => hq.1 h.symm
    simp [std_next, this]
    apply ih
    simpa [addrs] using hq.2

theorem erase_after_after (pre : List (Item α)) (q x : Item α) (post : List (Item α))
    (hq : q.addr ∉ addrs pre) :
    erase_after (pre ++ q :: x :: post) (.node q.addr) = pre ++ q :: post := by
  induction pre with
  | nil => simp [erase_after]
  | cons y ys ih =>
    simp [addrs] at hq
    have : ¬ y.addr = q.addr := fun h => hq.1 h.symm
    simp [erase_after, this]
    apply ih
    simpa [addrs] using hq.2

@[simp] theorem addrs_reset_visited (l : List (Item α)) :
    addrs (reset_visited l) = addrs l := by
  simp [addrs, reset_visited]

@[simp] theorem values_reset_visited (l : List (Item α)) :
    values (reset_visited l) = values l := by
  simp [values, reset_visited]

@[simp] theorem addrs_mark (pre : List (Item α)) (x : Item α) (post : List (Item α)) :
    addrs (pre ++ x.mark :: post) = addrs (pre ++ x :: post) := by
  simp [addrs, Item.mark]

@[simp] theorem values_mark (pre : List (Item α)) (x : Item α) (post : List (Item α)) :
    values (pre ++ x.mark :: post) = values (pre ++ x :: post) := by
  simp [values, Item.mark]

/-! ## What one call does -/

/-- The list the scan of `try_next()` runs on: `items_` after the conditional reset. -/
theorem scanned_eq (l : List (Item α)) (h : l ≠ []) :
    ∃ pre x post,
      (if all_visited l then reset_visited l else l) = pre ++ x :: post ∧
      (∀ it ∈ pre, it.visited = true) ∧ x.visited = false := by
  by_cases hall : all_visited l = true
  · rw [if_pos hall]
    obtain ⟨y, ys, rfl⟩ := List.exists_cons_of_ne_nil h
    exact all_visited_eq_false _ (all_visited_reset_cons y ys)
  · rw [if_neg hall]
    exact all_visited_eq_false _ (by simpa using hall)

/-- On a non-empty list `try_next()` returns from inside its loop: it returns the first
unvisited item `x` of the scanned list, marks it and leaves `current_` before it. -/
theorem try_next_nonempty (s : RoundRobin α) (h : s.items_ ≠ []) :
    ∃ pre x post,
      (if all_visited s.items_ then reset_visited s.items_ else s.items_) = pre ++ x :: post ∧
      (∀ it ∈ pre, it.visited = true) ∧ x.visited = false ∧
      try_next s = (some (x.addr, x.value),
        { s with items_ := pre ++ x.mark :: post, current_ := lastNode .before_begin pre }) := by
  obtain ⟨pre, x, post, heq, hpre, hx⟩ := scanned_eq s.items_ h
  refine ⟨pre, x, post, heq, hpre, hx, ?_⟩
  have hne : s.items_.isEmpty = false := by
    cases hs : s.items_ with
    | nil => exact absurd hs h
    | cons _ _ => rfl
  unfold try_next
  simp only [hne, heq, scan_append _ pre x post hpre hx]
  rfl

theorem try_next_empty (s : RoundRobin α) (h : s.items_ = []) :
    try_next s = (none, { s with current_ := .before_begin }) := by
  simp [try_next, h]

theorem next_eq (s : RoundRobin α) :
    (next s).2 = (try_next s).2 ∧
      (next s).1 = (match (try_next s).1 with
        | none => .error .emptyNext
        | some p => .ok p) := by
  unfold next
  rcases try_next s with ⟨_ | p, s1⟩ <;> simp

/-- After a fetch has left `current_` before `x`, `remove_current()` unlinks `x`. -/
theorem remove_current_after (s : RoundRobin α) (pre : List (Item α)) (x : Item α)
    (post : List (Item α)) (hnd : (addrs (pre ++ x :: post)).Nodup) :
    remove_current { s with items_ := pre ++ x :: post, current_ := lastNode .before_begin pre }
      = (.ok (),
          { items_ := pre ++ post
            current_ := if (pre ++ post).isEmpty then .before_begin
              else lastNode .before_begin pre
            count_ := decr s.count_
            heap_ := s.heap_ }) := by
  rcases List.eq_nil_or_concat pre with rfl | ⟨ps, q, rfl⟩
  · simp [remove_current, lastNode, std_next, erase_after]
  · simp only [List.concat_eq_append] at hnd ⊢
    have hq : q.addr ∉ addrs ps := by
      simp [addrs, List.nodup_append] at hnd
      simp [addrs]
      intro y hy hyq
      exact hnd.2.2.1 y hy hyq
    have e1 : ps ++ [q] ++ x :: post = ps ++ q :: x :: post := by simp
    have e2 : ps ++ [q] ++ post = ps ++ q :: post := by simp
    simp only [remove_current, lastNode_concat, e1, e2, std_next_after ps q x post hq,
      erase_after_after ps q x post hq]
    simp

/-- A fetch on a list with an unvisited item: no reset, the first unvisited item is returned. -/
theorem try_next_of_split (s : RoundRobin α) (pre : List (Item α)) (x : Item α)
    (post : List (Item α)) (hs : s.items_ = pre ++ x :: post)
    (hpre : ∀ it ∈ pre, it.visited = true) (hx : x.visited = false) :
    try_next s = (some (ptr x),
      { s with items_ := pre ++ x.mark :: post, current_ := lastNode .before_begin pre }) := by
  have hall : ¬ all_visited s.items_ = true := by
    rw [all_visited_eq_true, hs]
    intro h
    have := h x (by simp)
    simp [hx] at this
  unfold try_next
  rw [if_neg (by simp [hs])]
  simp only [if_neg hall]
  rw [hs, scan_append _ pre x post hpre hx]
  rfl

/-- A fetch on a list whose items are all visited: every flag is cleared and the head is
returned. -/
theorem try_next_of_all_visited (s : RoundRobin α) (x : Item α) (xs : List (Item α))
    (hs : s.items_ = x :: xs) (hall : ∀ it ∈ x :: xs, it.visited = true) :
    try_next s = (some (ptr x),
      { s with items_ := x :: reset_visited xs, current_ := .before_begin }) := by
  have hx : x.visited = true := hall x (List.mem_cons_self _ _)
  have h1 : all_visited s.items_ = true := by rw [all_visited_eq_true, hs]; exact hall
  unfold try_next
  rw [if_neg (by simp [hs])]
  simp only [h1, if_true]
  have h2 : reset_visited s.items_
      = [] ++ ({ x with visited := false } : Item α) :: reset_visited xs := by
    simp [hs, reset_visited]
  rw [h2, scan_append _ [] _ _ (by simp) rfl]
  cases x
  simp_all [Item.mark, lastNode, ptr]

/-! ## Runs of fetches -/

theorem reset_visited_map_mark (l : List (Item α)) (hl : ∀ it ∈ l, it.visited = false) :
    reset_visited (l.map Item.mark) = l := by
  induction l with
  | nil => rfl
  | cons x xs ih =>
    have hx : x.visited = false := hl x (List.mem_cons_self _ _)
    have hxs := ih fun it h => hl it (List.mem_cons_of_mem _ h)
    simp only [reset_visited, List.map_cons, List.map_map] at hxs ⊢
    rw [hxs]
    cases x
    simp_all [Item.mark]

/-- One fetch in a list whose first `j` items are the visited ones. -/
theorem try_next_marked (s : RoundRobin α) (l : List (Item α))
    (hl : ∀ it ∈ l, it.visited = false) (hne : l ≠ []) (j : Nat) (hj : j ≤ l.length)
    (hs : s.items_ = marked j l) :
    (try_next s).1 = (l[j % l.length]?).map ptr ∧
      (try_next s).2.items_ = marked (j % l.length + 1) l ∧
      (try_next s).2.count_ = s.count_ ∧ (try_next s).2.heap_ = s.heap_ := by
  have hpos : 0 < l.length := List.length_pos.2 hne
  rcases Nat.lt_or_eq_of_le hj with hlt | heq
  · rw [Nat.mod_eq_of_lt hlt]
    have hsplit : s.items_ = (l.take j).map Item.mark ++ l[j] :: l.drop (j + 1) := by
      rw [hs, marked, List.drop_eq_getElem_cons hlt]
    have hpre : ∀ it ∈ (l.take j).map Item.mark, it.visited = true := by
      intro it hit
      obtain ⟨y, _, rfl⟩ := List.mem_map.1 hit
      rfl
    have hx : l[j].visited = false := hl _ (List.getElem_mem _)
    rw [try_next_of_split s _ _ _ hsplit hpre hx]
    refine ⟨by simp [List.getElem?_eq_getElem hlt], ?_, rfl, rfl⟩
    show (l.take j).map Item.mark ++ l[j].mark :: l.drop (j + 1)
      = (l.take (j + 1)).map Item.mark ++ l.drop (j + 1)
    rw [List.take_succ, List.getElem?_eq_getElem hlt]
    simp only [Option.toList, List.map_append, List.map_cons, List.map_nil,
      List.append_assoc, List.singleton_append]
  · subst heq
    rw [Nat.mod_self]
    obtain ⟨x, xs, rfl⟩ := List.exists_cons_of_ne_nil hne
    have hsplit : s.items_ = x.mark :: xs.map Item.mark := by
      rw [hs]; simp [marked]
    have hall : ∀ it ∈ x.mark :: xs.map Item.mark, it.visited = true := by
      intro it hit
      rw [← List.map_cons] at hit
      obtain ⟨y, _, rfl⟩ := List.mem_map.1 hit
      rfl
    rw [try_next_of_all_visited s _ _ hsplit hall]
    refine ⟨by simp [ptr, Item.mark], ?_, rfl, rfl⟩
    simp [marked, reset_visited_map_mark xs fun it h => hl it (List.mem_cons_of_mem _ h)]

/-- Fetches in a list whose first `j` items are the visited ones go round the list. -/
theorem try_next_afterFetches_marked (l : List (Item α))
    (hl : ∀ it ∈ l, it.visited = false) (hne : l ≠ []) (k : Nat) :
    ∀ (s : RoundRobin α) (j : Nat), j ≤ l.length → s.items_ = marked j l →
      (try_next (afterFetches k s)).1 = (l[(j + k) % l.length]?).map ptr := by
  have hpos : 0 < l.length := List.length_pos.2 hne
  induction k with
  | zero =>
    intro s j hj hs
    exact (try_next_marked s l hl hne j hj hs).1
  | succ k ih =>
    intro s j hj hs
    have h := try_next_marked s l hl hne j hj hs
    have hlt : j % l.length + 1 ≤ l.length := Nat.mod_lt _ hpos
    rw [afterFetches, ih _ _ hlt h.2.1]
    congr 2
    rw [Nat.add_assoc, Nat.mod_add_mod, Nat.add_comm 1 k]

theorem fetchCalls_eq_afterFetches (s : RoundRobin α) (calls : List Bool) :
    fetchCalls s calls = afterFetches calls.length s := by
  induction calls generalizing s with
  | nil => rfl
  | cons c cs ih =>
    cases c
    · simp [fetchCalls, afterFetches, ih]
    · simp [fetchCalls, afterFetches, ih, (next_eq s).1]

theorem fetches_length (n : Nat) (s : RoundRobin α) : (fetches n s).length = n := by
  induction n generalizing s with
  | zero => rfl
  | succ n ih => simp [fetches, ih]

theorem fetches_getElem? (n : Nat) (s : RoundRobin α) (i : Nat) (hi : i < n) :
    (fetches n s)[i]? = some (try_next (afterFetches i s)).1 := by
  induction n generalizing s i with
  | zero => omega
  | succ n ih =>
    cases i with
    | zero => simp [fetches, afterFetches]
    | succ i => simp [fetches, afterFetches, ih _ i (by omega)]

/-! ## Runs of `add` -/

theorem nodes_length (h : Nat) (vs : List α) : (nodes h vs).length = vs.length := by
  induction vs generalizing h with
  | nil => rfl
  | cons v vs ih => simp [nodes, ih]

theorem nodes_unvisited (h : Nat) (vs : List α) : ∀ it ∈ nodes h vs, it.visited = false := by
  induction vs generalizing h with
  | nil => simp [nodes]
  | cons v vs ih =>
    intro it hit
    rcases List.mem_cons.1 hit with rfl | hit
    · rfl
    · exact ih _ it hit

theorem nodes_getElem? (h : Nat) (vs : List α) (i : Nat) :
    (nodes h vs)[i]? = (vs[i]?).map fun v => { addr := h + i, value := v, visited := false } := by
  induction vs generalizing h i with
  | nil => simp [nodes]
  | cons v vs ih =>
    cases i with
    | zero => simp [nodes]
    | succ i =>
      simp only [nodes, List.getElem?_cons_succ, ih]
      congr 2
      funext v
      congr 1
      omega

theorem nodes_addr_ge (h : Nat) (vs : List α) : ∀ it ∈ nodes h vs, h ≤ it.addr := by
  induction vs generalizing h with
  | nil => simp [nodes]
  | cons v vs ih =>
    intro it hit
    rcases List.mem_cons.1 hit with rfl | hit
    · exact Nat.le_refl _
    · exact Nat.le_of_succ_le (ih _ it hit)

theorem values_nodes (h : Nat) (vs : List α) : values (nodes h vs) = vs := by
  induction vs generalizing h with
  | nil => rfl
  | cons v vs ih =>
    have := ih (h + 1)
    simp only [values] at this
    simp [nodes, values, this]

theorem addAll_eq (s : RoundRobin α) (vs : List α) :
    addAll s vs =
      { items_ := (nodes s.heap_ vs).reverse ++ s.items_
        current_ := s.current_
        count_ := (addAll s vs).count_
        heap_ := s.heap_ + vs.length } := by
  induction vs generalizing s with
  | nil => simp [addAll, nodes]
  | cons v vs ih =>
    rw [addAll, ih]
    simp [add, nodes, addAll]
    omega

/-- The `k`-th fetch (`k = 0, 1, ...`) after `add`ing `vs` to a new container. -/
theorem try_next_after_addAll (heap : Nat) (vs : List α) (hvs : vs ≠ []) (k : Nat) :
    (try_next (afterFetches k (addAll (new heap) vs))).1
      = (vs[vs.length - 1 - k % vs.length]?).map
          fun v => (heap + (vs.length - 1 - k % vs.length), v) := by
  have hpos : 0 < vs.length := List.length_pos.2 hvs
  have hlt : k % vs.length < vs.length := Nat.mod_lt _ hpos
  have hne : (nodes heap vs).reverse ≠ [] := by
    intro h
    have := congrArg List.length h
    simp [nodes_length] at this
    exact hvs this
  have hl : ∀ it ∈ (nodes heap vs).reverse, it.visited = false := fun it h =>
    nodes_unvisited heap vs it (List.mem_reverse.1 h)
  have hs : (addAll (new heap) vs).items_ = marked 0 (nodes heap vs).reverse := by
    rw [addAll_eq]; simp [new, marked]
  rw [try_next_afterFetches_marked _ hl hne k _ 0 (Nat.zero_le _) hs]
  simp only [Nat.zero_add, List.length_reverse, nodes_length]
  rw [List.getElem?_reverse (by simpa [nodes_length] using hlt), nodes_length,
    nodes_getElem?]
  cases vs[vs.length - 1 - k % vs.length]? <;> simp [ptr]

/-- C1. After `add`ing `v1 .. vn` (`n ≥ 1`) to a new container, the `k`-th call of
`try_next()` or `next()` (`k = 0, 1, ...`, the calls mixed in any way) returns
`v_(n - (k mod n))`, held by the node made by that `add`; the first `n` calls return the
added values in reverse insertion order, each node once, and the `(n+1)`-th call returns
what the first returned. -/
theorem C1_fetch_cycles_in_reverse_insertion_order (heap : Nat) (vs : List α)
    (hvs : vs ≠ []) :
    (∀ calls : List Bool,
      ∃ v, vs[vs.length - 1 - calls.length % vs.length]? = some v ∧
        (try_next (fetchCalls (addAll (new heap) vs) calls)).1
          = some (heap + (vs.length - 1 - calls.length % vs.length), v) ∧
        (next (fetchCalls (addAll (new heap) vs) calls)).1
          = .ok (heap + (vs.length - 1 - calls.length % vs.length), v)) ∧
    fetches vs.length (addAll (new heap) vs)
      = (nodes heap vs).reverse.map (fun it => some (ptr it)) ∧
    (fetches vs.length (addAll (new heap) vs)).map (Option.map Prod.snd)
      = vs.reverse.map some ∧
    (try_next (afterFetches vs.length (addAll (new heap) vs))).1
      = (try_next (addAll (new heap) vs)).1 := by
  have hpos : 0 < vs.length := List.length_pos.2 hvs
  have hfetch : fetches vs.length (addAll (new heap) vs)
      = (nodes heap vs).reverse.map (fun it => some (ptr it)) := by
    apply List.ext_getElem?
    intro i
    by_cases hi : i < vs.length
    · have hmod : i % vs.length = i := Nat.mod_eq_of_lt hi
      rw [fetches_getElem? _ _ i hi, try_next_after_addAll heap vs hvs i, hmod,
        List.getElem?_map, List.getElem?_reverse (by simpa [nodes_length] using hi),
        nodes_length, nodes_getElem?]
      have hlt : vs.length - 1 - i < vs.length := by omega
      simp [List.getElem?_eq_getElem hlt, ptr]
    · rw [List.getElem?_eq_none (by simp [fetches_length]; omega),
        List.getElem?_eq_none (by simp [nodes_length]; omega)]
  refine ⟨?_, hfetch, ?_, ?_⟩
  · intro calls
    have hlt : vs.length - 1 - calls.length % vs.length < vs.length := by omega
    refine ⟨vs[vs.length - 1 - calls.length % vs.length], List.getElem?_eq_getElem hlt, ?_⟩
    have h := try_next_after_addAll heap vs hvs calls.length
    rw [List.getElem?_eq_getElem hlt] at h
    rw [fetchCalls_eq_afterFetches]
    refine ⟨h, ?_⟩
    rw [(next_eq _).2, h]
    rfl
  · rw [hfetch, List.map_map, List.map_reverse]
    have : (List.map (Option.map Prod.snd ∘ fun it => some (ptr it)) (nodes heap vs))
        = (values (nodes heap vs)).map some := by
      simp [values, ptr]
    rw [this, values_nodes, List.map_reverse]
  · rw [try_next_after_addAll heap vs hvs vs.length]
    have := try_next_after_addAll heap vs hvs 0
    simp only [afterFetches] at this
    rw [this]
    simp

/-- The statement of C1 for the strings of the test fixture. -/
theorem C1_fetch_cycles_in_reverse_insertion_order_witness :
    ["first", "second", "third"] ≠ [] ∧
    (∀ calls : List Bool,
      ∃ v, ["first", "second", "third"][3 - 1 - calls.length % 3]? = some v ∧
        (try_next (fetchCalls (addAll (new 0) ["first", "second", "third"]) calls)).1
          = some (0 + (3 - 1 - calls.length % 3), v) ∧
        (next (fetchCalls (addAll (new 0) ["first", "second", "third"]) calls)).1
          = .ok (0 + (3 - 1 - calls.length % 3), v)) ∧
    fetches 3 (addAll (new 0) ["first", "second", "third"])
      = (nodes 0 ["first", "second", "third"]).reverse.map (fun it => some (ptr it)) ∧
    (fetches 3 (addAll (new 0) ["first", "second", "third"])).map (Option.map Prod.snd)
      = ["third", "second", "first"].map some ∧
    (try_next (afterFetches 3 (addAll (new 0) ["first", "second", "third"]))).1
      = (try_next (addAll (new 0) ["first", "second", "third"])).1 :=
  ⟨by simp, C1_fetch_cycles_in_reverse_insertion_order 0 ["first", "second", "third"] (by simp)⟩

/-! ## Frame and well-formedness lemmas -/

theorem fetch_eq (viaNext : Bool) (s : RoundRobin α) : fetch viaNext s = try_next s := by
  cases viaNext
  · rfl
  · simp only [fetch, if_true, next]
    rcases try_next s with ⟨_ | p, s1⟩ <;> rfl

/-- A fetch changes neither the nodes nor their values, nor `count_`. -/
theorem try_next_frame (s : RoundRobin α) :
    addrs (try_next s).2.items_ = addrs s.items_ ∧
      values (try_next s).2.items_ = values s.items_ ∧
      (try_next s).2.count_ = s.count_ ∧ (try_next s).2.heap_ = s.heap_ := by
  by_cases h : s.items_ = []
  · rw [try_next_empty s h]; simp
  · obtain ⟨pre, x, post, heq, -, -, ht⟩ := try_next_nonempty s h
    rw [ht]
    simp only [addrs_mark, values_mark, ← heq]
    split_ifs <;> simp

theorem try_next_length (s : RoundRobin α) :
    (try_next s).2.items_.length = s.items_.length := by
  have := congrArg List.length (try_next_frame s).1
  simpa [addrs] using this

/-- What a fetch hands out is the address and the value of a node of the list. -/
theorem try_next_mem (s : RoundRobin α) (p : Nat × α) (h : (try_next s).1 = some p) :
    ∃ it ∈ s.items_, it.addr = p.1 ∧ it.value = p.2 := by
  by_cases hs : s.items_ = []
  · rw [try_next_empty s hs] at h; simp at h
  · obtain ⟨pre, x, post, heq, -, -, ht⟩ := try_next_nonempty s hs
    rw [ht] at h
    simp only [Option.some.injEq] at h
    subst h
    have hx : x ∈ (if all_visited s.items_ then reset_visited s.items_ else s.items_) := by
      rw [heq]; simp
    split_ifs at hx
    · obtain ⟨y, hy, rfl⟩ := List.mem_map.1 hx
      exact ⟨y, hy, rfl, rfl⟩
    · exact ⟨x, hx, rfl, rfl⟩

theorem erase_after_sublist (l : List (Item α)) (c : Iterator) :
    (erase_after l c).Sublist l := by
  cases c with
  | before_begin => simpa [erase_after] using List.tail_sublist l
  | node a =>
    induction l with
    | nil => simp [erase_after]
    | cons y ys ih =>
      simp only [erase_after]
      split_ifs
      · exact (List.tail_sublist ys).cons₂ y
      · exact ih.cons₂ y

theorem remove_current_sublist (s : RoundRobin α) :
    (remove_current s).2.items_.Sublist s.items_ := by
  unfold remove_current
  split_ifs
  · exact List.Sublist.refl _
  · split
    · exact List.Sublist.refl _
    · exact erase_after_sublist _ _

theorem remove_current_heap (s : RoundRobin α) : (remove_current s).2.heap_ = s.heap_ := by
  unfold remove_current
  split_ifs
  · rfl
  · split <;> rfl

theorem addrs_sublist {l l' : List (Item α)} (h : l.Sublist l') :
    (addrs l).Sublist (addrs l') := h.map _

theorem values_sublist {l l' : List (Item α)} (h : l.Sublist l') :
    (values l).Sublist (values l') := h.map _

/-- A node that is not in the list, at an address the free store has handed out, is in
no later list. -/
theorem run_absent_addr (a : Nat) (ops : List (Op α)) :
    ∀ s : RoundRobin α, a ∉ addrs s.items_ → a < s.heap_ →
      a ∉ addrs (run s ops).items_ ∧ a < (run s ops).heap_ := by
  induction ops with
  | nil => intro s h1 h2; exact ⟨h1, h2⟩
  | cons op ops ih =>
    intro s h1 h2
    apply ih
    · cases op with
      | add v =>
        simp only [step, add, addrs, List.map_cons, List.mem_cons, not_or]
        exact ⟨by omega, h1⟩
      | try_next => simpa [step, (try_next_frame s).1] using h1
      | next => simpa [step, (next_eq s).1, (try_next_frame s).1] using h1
      | remove_current =>
        exact fun h => h1 ((addrs_sublist (remove_current_sublist s)).subset h)
    · cases op with
      | add v => simp only [step, add]; omega
      | try_next => simpa [step, (try_next_frame s).2.2.2] using h2
      | next => simpa [step, (next_eq s).1, (try_next_frame s).2.2.2] using h2
      | remove_current => simpa [step, remove_current_heap] using h2

/-- A value that is not stored and is not added is not stored later. -/
theorem run_absent_value (v : α) (ops : List (Op α)) :
    ∀ s : RoundRobin α, v ∉ values s.items_ → (∀ o ∈ ops, o ≠ Op.add v) →
      v ∉ values (run s ops).items_ := by
  induction ops with
  | nil => intro s h1 _; exact h1
  | cons op ops ih =>
    intro s h1 h2
    apply ih _ _ fun o ho => h2 o (List.mem_cons_of_mem _ ho)
    have hop := h2 op (List.mem_cons_self _ _)
    cases op with
    | add w =>
      simp only [step, add, values, List.map_cons, List.mem_cons, not_or]
      refine ⟨?_, h1⟩
      intro hvw
      exact hop (by rw [hvw])
    | try_next => simpa [step, (try_next_frame s).2.1] using h1
    | next => simpa [step, (next_eq s).1, (try_next_frame s).2.1] using h1
    | remove_current =>
      exact fun h => h1 ((values_sublist (remove_current_sublist s)).subset h)

/-- C2. On a non-empty container, a fetch (by `try_next()` or `next()`) returns an element
`e`; `remove_current()` right after it does not throw, `size()` goes down by exactly one,
the list is the previous one without the node of `e`, and no later fetch, after any
calls whatever, returns that node; nor does one return the value of `e`, unless that value
is still stored in another node or is added again. -/
theorem C2_remove_current_removes_the_fetched_element (s : RoundRobin α) (hwf : WF s)
    (hne : s.items_ ≠ []) (viaNext : Bool) :
    ∃ (a : Nat) (v : α) (pre post : List (Item α)),
      (fetch viaNext s).1 = some (a, v) ∧
      (fetch viaNext s).2.items_ = pre ++ { addr := a, value := v, visited := true } :: post ∧
      addrs s.items_ = addrs pre ++ a :: addrs post ∧
      values s.items_ = values pre ++ v :: values post ∧
      (remove_current (fetch viaNext s).2).1 = .ok () ∧
      (fetch viaNext s).2.size = s.size ∧
      (remove_current (fetch viaNext s).2).2.size + 1 = s.size ∧
      (remove_current (fetch viaNext s).2).2.items_ = pre ++ post ∧
      ∀ (ops : List (Op α)) (viaNext' : Bool) (p : Nat × α),
        (fetch viaNext' (run (remove_current (fetch viaNext s).2).2 ops)).1 = some p →
          p.1 ≠ a ∧
          (v ∉ values (pre ++ post) → (∀ o ∈ ops, o ≠ Op.add v) → p.2 ≠ v) := by
  obtain ⟨pre, x, post, heq, -, -, ht⟩ := try_next_nonempty s hne
  have haddrs : addrs s.items_ = addrs (pre ++ x :: post) := by
    rw [← heq]; split_ifs <;> simp
  have hvalues : values s.items_ = values (pre ++ x :: post) := by
    rw [← heq]; split_ifs <;> simp
  have hnd : (addrs (pre ++ x.mark :: post)).Nodup := by
    rw [addrs_mark, ← haddrs]; exact hwf.nodup
  have hlen : s.items_.length = pre.length + (post.length + 1) := by
    have := congrArg List.length haddrs
    simpa [addrs] using this
  have hcount : s.count_ = pre.length + (post.length + 1) := by rw [hwf.count, hlen]
  have hrem := remove_current_after s pre x.mark post hnd
  have hf : fetch viaNext s = (some (x.addr, x.value),
      { s with items_ := pre ++ x.mark :: post, current_ := lastNode .before_begin pre }) := by
    rw [fetch_eq, ht]
  have hr : remove_current (fetch viaNext s).2 = (.ok (),
      { items_ := pre ++ post
        current_ := if (pre ++ post).isEmpty then .before_begin
          else lastNode .before_begin pre
        count_ := decr s.count_
        heap_ := s.heap_ }) := by
    rw [hf]; exact hrem
  refine ⟨x.addr, x.value, pre, post, ?_, ?_, ?_, ?_, ?_, ?_, ?_, ?_, ?_⟩
  · rw [hf]
  · rw [hf]; rfl
  · rw [haddrs]; simp [addrs]
  · rw [hvalues]; simp [values]
  · rw [hr]
  · rw [hf]; rfl
  · rw [hr]
    simp only [size, decr, hcount]
    rw [if_neg (by omega)]
    omega
  · rw [hr]
  · intro ops viaNext' p hp
    rw [fetch_eq, hr] at hp
    obtain ⟨it, hit, hia, hiv⟩ := try_next_mem _ p hp
    have hxa : x.addr ∉ addrs (pre ++ post) := by
      have := hnd
      simp only [addrs, List.map_append, List.map_cons, Item.mark] at this ⊢
      rw [List.nodup_middle, List.nodup_cons] at this
      exact this.1
    have hfresh : x.addr < s.heap_ := hwf.fresh _ (by rw [haddrs]; simp [addrs])
    refine ⟨?_, ?_⟩
    · have h := (run_absent_addr x.addr ops
        { items_ := pre ++ post,
          current_ := if (pre ++ post).isEmpty then .before_begin
            else lastNode .before_begin pre,
          count_ := decr s.count_, heap_ := s.heap_ } hxa hfresh).1
      intro hpa
      apply h
      rw [← hpa, ← hia]
      exact List.mem_map_of_mem _ hit
    · intro hv hops hpv
      have h := run_absent_value x.value ops
        { items_ := pre ++ post,
          current_ := if (pre ++ post).isEmpty then .before_begin
            else lastNode .before_begin pre,
          count_ := decr s.count_, heap_ := s.heap_ } hv hops
      apply h
      rw [← hpv, ← hiv]
      exact List.mem_map_of_mem _ hit

theorem sample_reachable :
    run (new 0) [.add 10, .try_next, .add 20, .add 30, .next] = sample := by decide

theorem wf_sample : WF sample := ⟨by decide, by decide, Or.inl rfl, rfl⟩

/-- The statement of C2 at the container `sample`, fetched from by `next()`. -/
theorem C2_remove_current_removes_the_fetched_element_witness :
    WF sample ∧ sample.items_ ≠ [] ∧
    ∃ (a : Nat) (v : Nat) (pre post : List (Item Nat)),
      (fetch true sample).1 = some (a, v) ∧
      (fetch true sample).2.items_ = pre ++ { addr := a, value := v, visited := true } :: post ∧
      addrs sample.items_ = addrs pre ++ a :: addrs post ∧
      values sample.items_ = values pre ++ v :: values post ∧
      (remove_current (fetch true sample).2).1 = .ok () ∧
      (fetch true sample).2.size = sample.size ∧
      (remove_current (fetch true sample).2).2.size + 1 = sample.size ∧
      (remove_current (fetch true sample).2).2.items_ = pre ++ post ∧
      ∀ (ops : List (Op Nat)) (viaNext' : Bool) (p : Nat × Nat),
        (fetch viaNext' (run (remove_current (fetch true sample).2).2 ops)).1 = some p →
          p.1 ≠ a ∧
          (v ∉ values (pre ++ post) → (∀ o ∈ ops, o ≠ Op.add v) → p.2 ≠ v) :=
  ⟨wf_sample, by decide,
    C2_remove_current_removes_the_fetched_element sample wf_sample (by decide) true⟩

/-! ## `remove_current()` at a position that no fetch has just set -/

theorem addAll_append (s : RoundRobin α) (vs ws : List α) :
    addAll s (vs ++ ws) = addAll (addAll s vs) ws := by
  induction vs generalizing s with
  | nil => rfl
  | cons v vs ih => simp [addAll, ih]

theorem addAll_current (s : RoundRobin α) (vs : List α) :
    (addAll s vs).current_ = s.current_ := by
  rw [addAll_eq]

theorem addAll_items (s : RoundRobin α) (vs : List α) :
    (addAll s vs).items_ = (nodes s.heap_ vs).reverse ++ s.items_ := by
  rw [addAll_eq]

theorem addAll_heap (s : RoundRobin α) (vs : List α) :
    (addAll s vs).heap_ = s.heap_ + vs.length := by
  rw [addAll_eq]

/-- With `current_` at `before_begin()` the head of a non-empty list is unlinked. -/
theorem remove_current_before_begin (s : RoundRobin α) (x : Item α) (xs : List (Item α))
    (hs : s.items_ = x :: xs) (hc : s.current_ = .before_begin) :
    remove_current s = (.ok (),
      { s with items_ := xs, count_ := decr s.count_, current_ := .before_begin }) := by
  simp [remove_current, hs, hc, std_next, erase_after]

/-- With `current_` at a node that has a successor, the successor is unlinked. -/
theorem remove_current_node (s : RoundRobin α) (pre : List (Item α)) (q x : Item α)
    (post : List (Item α)) (hs : s.items_ = pre ++ q :: x :: post)
    (hc : s.current_ = .node q.addr) (hq : q.addr ∉ addrs pre) :
    remove_current s = (.ok (),
      { s with items_ := pre ++ q :: post, count_ := decr s.count_ }) := by
  simp [remove_current, hs, hc, std_next_after pre q x post hq,
    erase_after_after pre q x post hq]

theorem std_next_last (pre : List (Item α)) (q : Item α) (hq : q.addr ∉ addrs pre) :
    std_next (pre ++ [q]) (.node q.addr) = none := by
  induction pre with
  | nil => simp [std_next]
  | cons y ys ih =>
    simp [addrs] at hq
    have : ¬ y.addr = q.addr := fun h => hq.1 h.symm
    simp [std_next, this]
    apply ih
    simpa [addrs] using hq.2

/-- With `current_` at the last node of the list `remove_current()` throws the
invalid-position error and changes nothing. -/
theorem remove_current_last (s : RoundRobin α) (pre : List (Item α)) (q : Item α)
    (hs : s.items_ = pre ++ [q]) (hc : s.current_ = .node q.addr)
    (hq : q.addr ∉ addrs pre) :
    remove_current s = (.error .invalidCurrent, s) := by
  simp [remove_current, hs, hc, std_next_last pre q hq]

/-- C3. A container that holds elements put there by `add`, on which nothing has been
fetched: `remove_current()` does not throw; it unlinks the head of the list, the element
added last.  The documentation of `remove_current()` announces a `std::runtime_error` for
a call before any `next()` or `try_next()`. -/
theorem C3_remove_current_before_any_fetch_unlinks_the_head (heap : Nat) (vs : List α)
    (v : α) :
    (addAll (new heap) (vs ++ [v])).items_
      = { addr := heap + vs.length, value := v, visited := false }
          :: (addAll (new heap) vs).items_ ∧
    (remove_current (addAll (new heap) (vs ++ [v]))).1 = .ok () ∧
    (remove_current (addAll (new heap) (vs ++ [v]))).1 ≠ .error .invalidCurrent ∧
    (remove_current (addAll (new heap) (vs ++ [v]))).2.items_
      = (addAll (new heap) vs).items_ ∧
    (remove_current (add (new 0) (7 : Nat))).1 = .ok () ∧
    (remove_current (add (new 0) (7 : Nat))).2.items_ = [] := by
  have h1 : (addAll (new heap) (vs ++ [v])).items_
      = { addr := heap + vs.length, value := v, visited := false }
          :: (addAll (new heap) vs).items_ := by
    rw [addAll_append]
    simp [addAll, add, addAll_heap, new]
  have h2 : (addAll (new heap) (vs ++ [v])).current_ = .before_begin := by
    rw [addAll_current]; rfl
  rw [remove_current_before_begin _ _ _ h1 h2]
  exact ⟨h1, rfl, by simp, rfl, by decide, by decide⟩

/-- A second `remove_current()` with no fetch in between: it throws only when the element
removed by the first was the last of the list; when an element `y` followed it, the second
call unlinks `y`. -/
theorem second_remove_current (s : RoundRobin α) (hwf : WF s) (hne : s.items_ ≠ [])
    (viaNext : Bool) :
    ∃ (x : Item α) (pre post : List (Item α)),
      (fetch viaNext s).1 = some (ptr x) ∧
      (fetch viaNext s).2.items_ = pre ++ x.mark :: post ∧
      (remove_current (fetch viaNext s).2).1 = .ok () ∧
      (remove_current (fetch viaNext s).2).2.items_ = pre ++ post ∧
      (post = [] → pre ≠ [] →
        remove_current (remove_current (fetch viaNext s).2).2
          = (.error .invalidCurrent, (remove_current (fetch viaNext s).2).2)) ∧
      (∀ y post', post = y :: post' →
        (remove_current (remove_current (fetch viaNext s).2).2).1 = .ok () ∧
        (remove_current (remove_current (fetch viaNext s).2).2).2.items_ = pre ++ post') := by
  obtain ⟨pre, x, post, heq, -, -, ht⟩ := try_next_nonempty s hne
  have haddrs : addrs s.items_ = addrs (pre ++ x :: post) := by
    rw [← heq]; split_ifs <;> simp
  have hnd : (addrs (pre ++ x.mark :: post)).Nodup := by
    rw [addrs_mark, ← haddrs]; exact hwf.nodup
  have hf : fetch viaNext s = (some (x.addr, x.value),
      { s with items_ := pre ++ x.mark :: post, current_ := lastNode .before_begin pre }) := by
    rw [fetch_eq, ht]
  have hr : remove_current (fetch viaNext s).2 = (.ok (),
      { items_ := pre ++ post
        current_ := if (pre ++ post).isEmpty then .before_begin
          else lastNode .before_begin pre
        count_ := decr s.count_
        heap_ := s.heap_ }) := by
    rw [hf]; exact remove_current_after s pre x.mark post hnd
  have hnd2 : (addrs (pre ++ post)).Nodup := by
    have := hnd
    simp only [addrs, List.map_append, List.map_cons] at this ⊢
    rw [List.nodup_middle, List.nodup_cons] at this
    exact this.2
  refine ⟨x, pre, post, by rw [hf]; rfl, by rw [hf], by rw [hr], by rw [hr], ?_, ?_⟩
  · intro hpost hpre
    subst hpost
    rw [hr]
    obtain ⟨ps, q, rfl⟩ := (List.eq_nil_or_concat pre).resolve_left hpre
    simp only [List.concat_eq_append] at hnd2 ⊢
    apply remove_current_last _ ps q
    · simp
    · simp [lastNode_concat]
    · simp [addrs, List.nodup_append] at hnd2
      simp [addrs]
      intro y hy hyq
      exact hnd2.2 y hy hyq
  · intro y post' hpost
    subst hpost
    rw [hr]
    have hemp : (pre ++ y :: post').isEmpty = false := by cases pre <;> rfl
    have h2 : remove_current
        ({ items_ := pre ++ y :: post', current_ := lastNode .before_begin pre,
           count_ := decr s.count_, heap_ := s.heap_ } : RoundRobin α)
        = (.ok (),
          { items_ := pre ++ post'
            current_ := if (pre ++ post').isEmpty then .before_begin
              else lastNode .before_begin pre
            count_ := decr (decr s.count_)
            heap_ := s.heap_ }) :=
      remove_current_after
        { items_ := pre ++ y :: post', current_ := .before_begin, count_ := decr s.count_,
          heap_ := s.heap_ } pre y post' hnd2
    simp only [hemp, Bool.false_eq_true, if_false]
    rw [h2]
    exact ⟨rfl, rfl⟩

/-- C4. The container holding 1, 2, 3 (added in that order): `next()` returns 3, the
head; `remove_current()` removes it; a second `remove_current()` with no fetch in between
does not throw: it removes 2, which no fetch has returned, and leaves 1. -/
theorem C4_second_remove_current_unlinks_the_following_element :
    (next (addAll (new 0) [1, 2, 3])).1 = .ok (2, 3) ∧
    (remove_current (next (addAll (new 0) [1, 2, 3])).2).1 = .ok () ∧
    values (remove_current (next (addAll (new 0) [1, 2, 3])).2).2.items_ = [2, 1] ∧
    (remove_current (remove_current (next (addAll (new 0) [1, 2, 3])).2).2).1 = .ok () ∧
    (remove_current (remove_current (next (addAll (new 0) [1, 2, 3])).2).2).1
      ≠ .error .invalidCurrent ∧
    values (remove_current (remove_current (next (addAll (new 0) [1, 2, 3])).2).2).2.items_
      = [1] := by
  decide

/-- After a fetch that returned `x` and a run of `add` calls, `remove_current()` unlinks
`x` when `x` was not the head of the list or nothing was added; when `x` was the head and
something was added, it unlinks the element added last and `x` stays. -/
theorem remove_current_after_adds (s : RoundRobin α) (hwf : WF s) (hne : s.items_ ≠ [])
    (viaNext : Bool) (ws : List α) :
    ∃ (x : Item α) (pre post : List (Item α)),
      (fetch viaNext s).1 = some (ptr x) ∧
      (fetch viaNext s).2.items_ = pre ++ x.mark :: post ∧
      (pre ≠ [] ∨ ws = [] →
        (remove_current (addAll (fetch viaNext s).2 ws)).1 = .ok () ∧
        (remove_current (addAll (fetch viaNext s).2 ws)).2.items_
          = (nodes s.heap_ ws).reverse ++ (pre ++ post)) ∧
      (pre = [] → ∀ ws' w, ws = ws' ++ [w] →
        (remove_current (addAll (fetch viaNext s).2 ws)).1 = .ok () ∧
        (remove_current (addAll (fetch viaNext s).2 ws)).2.items_
          = (nodes s.heap_ ws').reverse ++ x.mark :: post) := by
  obtain ⟨pre, x, post, heq, -, -, ht⟩ := try_next_nonempty s hne
  have haddrs : addrs s.items_ = addrs (pre ++ x :: post) := by
    rw [← heq]; split_ifs <;> simp
  have hnd : (addrs (pre ++ x.mark :: post)).Nodup := by
    rw [addrs_mark, ← haddrs]; exact hwf.nodup
  have hf : fetch viaNext s = (some (x.addr, x.value),
      { s with items_ := pre ++ x.mark :: post, current_ := lastNode .before_begin pre }) := by
    rw [fetch_eq, ht]
  refine ⟨x, pre, post, by rw [hf]; rfl, by rw [hf], ?_, ?_⟩
  · intro h
    rw [hf]
    rcases List.eq_nil_or_concat pre with rfl | ⟨ps, q, rfl⟩
    · have hws : ws = [] := h.resolve_left (by simp)
      subst hws
      have := remove_current_after s [] x.mark post hnd
      simp only [addAll, nodes, List.reverse_nil, List.nil_append] at this ⊢
      rw [this]
      exact ⟨rfl, rfl⟩
    · simp only [List.concat_eq_append] at hnd haddrs ⊢
      have hq : q.addr ∉ addrs ((nodes s.heap_ ws).reverse ++ ps) := by
        simp only [addrs, List.map_append, List.mem_append, not_or, List.map_reverse,
          List.mem_reverse]
        constructor
        · intro hmem
          obtain ⟨it, hit, hitq⟩ := List.mem_map.1 hmem
          have h1 := nodes_addr_ge s.heap_ ws it hit
          have h2 : q.addr < s.heap_ := hwf.fresh _ (by rw [haddrs]; simp [addrs])
          omega
        · simp [addrs, List.nodup_append] at hnd
          intro hmem
          obtain ⟨it, hit, hitq⟩ := List.mem_map.1 hmem
          exact hnd.2.2.1 it hit hitq
      have := remove_current_node
        (addAll { s with items_ := ps ++ [q] ++ x.mark :: post,
                          current_ := lastNode .before_begin (ps ++ [q]) } ws)
        ((nodes s.heap_ ws).reverse ++ ps) q x.mark post
        (by rw [addAll_items]; simp) (by rw [addAll_current]; simp [lastNode_concat]) hq
      rw [this]
      exact ⟨rfl, by simp⟩
  · intro hpre ws' w hws
    subst hpre hws
    rw [hf]
    have := remove_current_before_begin
      (addAll { s with items_ := [] ++ x.mark :: post,
                        current_ := lastNode .before_begin ([] : List (Item α)) } (ws' ++ [w]))
      { addr := s.heap_ + ws'.length, value := w, visited := false }
      ((nodes s.heap_ ws').reverse ++ x.mark :: post)
      (by rw [addAll_append]; simp [addAll, add, addAll_heap, addAll_items])
      (by rw [addAll_current]; rfl)
    rw [this]
    exact ⟨rfl, rfl⟩

/-- C5. `add(1)`, then `try_next()` returns 1, the head of the list; after `add(2)`,
`remove_current()` does not remove 1, the element most recently fetched: it removes 2,
the element just added, and 1 stays in the container. -/
theorem C5_remove_current_after_add_unlinks_the_added_element :
    (try_next (add (new 0) 1)).1 = some (0, 1) ∧
    values (add (try_next (add (new 0) 1)).2 2).items_ = [2, 1] ∧
    (remove_current (add (try_next (add (new 0) 1)).2 2)).1 = .ok () ∧
    values (remove_current (add (try_next (add (new 0) 1)).2 2)).2.items_ = [1] := by
  decide

/-! ## Well-formedness is kept by every call -/

theorem wf_new (heap : Nat) : WF (new heap : RoundRobin α) :=
  ⟨by simp [new, addrs], by simp [new, addrs], Or.inl rfl, rfl⟩

theorem wf_add (s : RoundRobin α) (hwf : WF s) (hc : s.count_ < SIZE_MAX) (v : α) :
    WF (add s v) := by
  refine ⟨?_, ?_, ?_, ?_⟩
  · simp only [add, addrs, List.map_cons, List.nodup_cons]
    exact ⟨fun h => Nat.lt_irrefl _ (hwf.fresh _ h), hwf.nodup⟩
  · intro a ha
    simp only [add, addrs, List.map_cons, List.mem_cons] at ha ⊢
    rcases ha with rfl | ha
    · omega
    · exact Nat.lt_succ_of_lt (hwf.fresh _ ha)
  · rcases hwf.current with h | ⟨a, h, ha⟩
    · exact Or.inl h
    · exact Or.inr ⟨a, h, by simp only [add, addrs, List.map_cons]; exact List.mem_cons_of_mem _ ha⟩
  · simp only [add, incr, List.length_cons, hwf.count.symm]
    rw [if_neg (by omega)]

theorem lastNode_mem (pre : List (Item α)) :
    lastNode .before_begin pre = .before_begin ∨
      ∃ a, lastNode .before_begin pre = .node a ∧ a ∈ addrs pre := by
  rcases List.eq_nil_or_concat pre with rfl | ⟨ps, q, rfl⟩
  · exact Or.inl rfl
  · simp only [List.concat_eq_append]
    exact Or.inr ⟨q.addr, lastNode_concat _ _ _, by simp [addrs]⟩

theorem wf_try_next (s : RoundRobin α) (hwf : WF s) : WF (try_next s).2 := by
  have hfr := try_next_frame s
  refine ⟨by rw [hfr.1]; exact hwf.nodup, ?_, ?_, ?_⟩
  · rw [hfr.1, hfr.2.2.2]; exact hwf.fresh
  · by_cases h : s.items_ = []
    · rw [try_next_empty s h]; exact Or.inl rfl
    · obtain ⟨pre, x, post, -, -, -, ht⟩ := try_next_nonempty s h
      rw [ht]
      rcases lastNode_mem pre with h1 | ⟨a, h1, ha⟩
      · exact Or.inl h1
      · refine Or.inr ⟨a, h1, ?_⟩
        simp only [addrs, List.map_append, List.mem_append] at ha ⊢
        exact Or.inl ha
  · rw [hfr.2.2.1, try_next_length]; exact hwf.count

theorem erase_after_length (l : List (Item α)) (c : Iterator) (y : Item α)
    (h : std_next l c = some y) : (erase_after l c).length + 1 = l.length := by
  cases c with
  | before_begin =>
    cases l with
    | nil => simp [std_next] at h
    | cons x xs => simp [erase_after]
  | node a =>
    induction l with
    | nil => simp [std_next] at h
    | cons x xs ih =>
      simp only [std_next] at h
      simp only [erase_after]
      split_ifs at h ⊢ with hxa
      · cases xs with
        | nil => simp at h
        | cons z zs => simp
      · simp [ih h]

theorem mem_addrs_erase_after (l : List (Item α)) (a : Nat) (h : a ∈ addrs l) :
    a ∈ addrs (erase_after l (.node a)) := by
  induction l with
  | nil => simp [addrs] at h
  | cons x xs ih =>
    simp only [erase_after]
    split_ifs with hxa
    · simp [addrs, hxa]
    · simp only [addrs, List.map_cons, List.mem_cons] at h ⊢
      rcases h with h | h
      · exact absurd h.symm hxa
      · exact Or.inr (ih h)

theorem wf_remove_current (s : RoundRobin α) (hwf : WF s) : WF (remove_current s).2 := by
  unfold remove_current
  split_ifs with hemp
  · exact hwf
  · split
    · exact hwf
    · rename_i y hy
      have hsub := erase_after_sublist s.items_ s.current_
      refine ⟨(addrs_sublist hsub).nodup hwf.nodup,
        fun a ha => hwf.fresh a ((addrs_sublist hsub).subset ha), ?_, ?_⟩
      · simp only
        split_ifs
        · exact Or.inl rfl
        · rcases hwf.current with h | ⟨a, h, ha⟩
          · exact Or.inl h
          · exact Or.inr ⟨a, h, by rw [h]; exact mem_addrs_erase_after _ _ ha⟩
      · have hlen := erase_after_length _ _ _ hy
        have hc := hwf.count
        simp only [decr]
        rw [if_neg (by omega)]
        omega

theorem wf_empty_iff (s : RoundRobin α) (hwf : WF s) :
    empty s = true ↔ s.items_ = [] := by
  simp [empty, hwf.count]

theorem remove_current_length_le (s : RoundRobin α) :
    (remove_current s).2.items_.length ≤ s.items_.length :=
  (remove_current_sublist s).length_le

/-- Every state reached from a well-formed one is well-formed, as long as `count_` cannot
wrap: the states the theorems below speak about are the ones a container is in. -/
theorem wf_run (ops : List (Op α)) :
    ∀ s : RoundRobin α, WF s → s.count_ + ops.length ≤ SIZE_MAX → WF (run s ops) := by
  induction ops with
  | nil => intro s hwf _; exact hwf
  | cons op ops ih =>
    intro s hwf hc
    simp only [List.length_cons] at hc
    cases op with
    | add v =>
      have hwf' := wf_add s hwf (by omega) v
      apply ih _ hwf'
      have : (add s v).count_ = s.count_ + 1 := by
        simp only [add, incr]
        rw [if_neg (by omega)]
      show (add s v).count_ + ops.length ≤ SIZE_MAX
      omega
    | try_next =>
      apply ih _ (wf_try_next s hwf)
      simp only [step, (try_next_frame s).2.2.1]
      omega
    | next =>
      have h := wf_try_next s hwf
      rw [← (next_eq s).1] at h
      apply ih _ h
      simp only [step, (next_eq s).1, (try_next_frame s).2.2.1]
      omega
    | remove_current =>
      have h := wf_remove_current s hwf
      apply ih _ h
      have h1 := remove_current_length_le s
      have h2 := h.count
      have h3 := hwf.count
      show (remove_current s).2.count_ + ops.length ≤ SIZE_MAX
      omega

/-! ## The empty container -/

theorem try_next_eq_none_iff (s : RoundRobin α) :
    (try_next s).1 = none ↔ s.items_ = [] := by
  constructor
  · intro h
    by_contra hne
    obtain ⟨pre, x, post, -, -, -, ht⟩ := try_next_nonempty s hne
    rw [ht] at h
    simp at h
  · intro h
    rw [try_next_empty s h]

/-- C6. `try_next()` returns `nullptr` exactly on the empty container and `next()` throws
exactly there, with the empty-container message and no other; on the empty container
`remove_current()` throws "Attempted to remove from empty RoundRobin", not the
invalid-position error; after each of these failing calls `size()` is still 0. -/
theorem C6_empty_container (s : RoundRobin α) (hwf : WF s) :
    ((try_next s).1 = none ↔ empty s = true) ∧
    ((next s).1 = .error .emptyNext ↔ empty s = true) ∧
    (∀ e, (next s).1 = .error e → e = .emptyNext) ∧
    RuntimeError.emptyNext.what = "Attempted to get next item from empty RoundRobin" ∧
    RuntimeError.emptyRemove.what = "Attempted to remove from empty RoundRobin" ∧
    (empty s = true →
      (remove_current s).1 = .error .emptyRemove ∧
      size (try_next s).2 = 0 ∧ size (next s).2 = 0 ∧ size (remove_current s).2 = 0 ∧
      (try_next s).2.items_ = [] ∧ (next s).2.items_ = [] ∧
      (remove_current s).2.items_ = []) := by
  have hiff := wf_empty_iff s hwf
  have hnext := next_eq s
  refine ⟨by rw [try_next_eq_none_iff, hiff], ?_, ?_, rfl, rfl, ?_⟩
  · rw [hnext.2, hiff, ← try_next_eq_none_iff]
    cases (try_next s).1 <;> simp
  · intro e he
    rw [hnext.2] at he
    cases h : (try_next s).1 with
    | none => rw [h] at he; simp at he; exact he.symm
    | some p => rw [h] at he; simp at he
  · intro hemp
    have hitems := hiff.1 hemp
    have hsize : s.count_ = 0 := by simpa [empty] using hemp
    have hrem : remove_current s = (.error .emptyRemove, s) := by
      simp [remove_current, hitems]
    rw [hnext.1, hrem, try_next_empty s hitems]
    exact ⟨rfl, hsize, hsize, hsize, hitems, hitems, hitems⟩

/-- The statement of C6 at a new container. -/
theorem C6_empty_container_witness :
    WF (new 0 : RoundRobin Nat) ∧
    ((try_next (new 0 : RoundRobin Nat)).1 = none ↔ empty (new 0 : RoundRobin Nat) = true) ∧
    ((next (new 0 : RoundRobin Nat)).1 = .error .emptyNext
      ↔ empty (new 0 : RoundRobin Nat) = true) ∧
    (∀ e, (next (new 0 : RoundRobin Nat)).1 = .error e → e = .emptyNext) ∧
    RuntimeError.emptyNext.what = "Attempted to get next item from empty RoundRobin" ∧
    RuntimeError.emptyRemove.what = "Attempted to remove from empty RoundRobin" ∧
    (empty (new 0 : RoundRobin Nat) = true →
      (remove_current (new 0 : RoundRobin Nat)).1 = .error .emptyRemove ∧
      size (try_next (new 0 : RoundRobin Nat)).2 = 0 ∧
      size (next (new 0 : RoundRobin Nat)).2 = 0 ∧
      size (remove_current (new 0 : RoundRobin Nat)).2 = 0 ∧
      (try_next (new 0 : RoundRobin Nat)).2.items_ = [] ∧
      (next (new 0 : RoundRobin Nat)).2.items_ = [] ∧
      (remove_current (new 0 : RoundRobin Nat)).2.items_ = []) :=
  ⟨wf_new 0, C6_empty_container (new 0) (wf_new 0)⟩

/-! ## Draining -/

/-- One iteration of the draining loop on a non-empty container. -/
theorem drain_step (s : RoundRobin α) (hwf : WF s) (hne : s.items_ ≠ []) :
    (try_next s).1 ≠ none ∧
    (remove_current (try_next s).2).1 = .ok () ∧
    WF (remove_current (try_next s).2).2 ∧
    (remove_current (try_next s).2).2.items_.length + 1 = s.items_.length := by
  obtain ⟨pre, x, post, heq, -, -, ht⟩ := try_next_nonempty s hne
  have haddrs : addrs s.items_ = addrs (pre ++ x :: post) := by
    rw [← heq]; split_ifs <;> simp
  have hnd : (addrs (pre ++ x.mark :: post)).Nodup := by
    rw [addrs_mark, ← haddrs]; exact hwf.nodup
  have hwf2 := wf_remove_current _ (wf_try_next s hwf)
  rw [ht] at hwf2 ⊢
  have hrem := remove_current_after s pre x.mark post hnd
  have hrem2 : remove_current
      ({ items_ := pre ++ x.mark :: post, current_ := lastNode .before_begin pre,
         count_ := s.count_, heap_ := s.heap_ } : RoundRobin α)
      = (.ok (),
          { items_ := pre ++ post
            current_ := if (pre ++ post).isEmpty then .before_begin
              else lastNode .before_begin pre
            count_ := decr s.count_
            heap_ := s.heap_ }) := hrem
  simp only [hrem2] at hwf2 ⊢
  refine ⟨by simp, trivial, hwf2, ?_⟩
  have := congrArg List.length haddrs
  simp [addrs] at this ⊢
  omega

theorem drain_of_empty (fuel : Nat) (s : RoundRobin α) (h : empty s = true) :
    drain fuel s = some (.ok ([], s)) := by
  cases fuel <;> simp [drain, h]

/-- With fuel for one iteration per element the draining loop ends normally, after as
many iterations as there are elements, on the empty list. -/
theorem drain_spec (fuel : Nat) :
    ∀ s : RoundRobin α, WF s → s.items_.length ≤ fuel →
      ∃ rs sf, drain fuel s = some (.ok (rs, sf)) ∧ rs.length = s.items_.length ∧
        (∀ r ∈ rs, r ≠ none) ∧ WF sf ∧ sf.items_ = [] := by
  induction fuel with
  | zero =>
    intro s hwf hlen
    have hnil : s.items_ = [] := List.length_eq_zero.1 (Nat.le_zero.1 hlen)
    exact ⟨[], s, drain_of_empty _ s ((wf_empty_iff s hwf).2 hnil), by simp [hnil],
      by simp, hwf, hnil⟩
  | succ fuel ih =>
    intro s hwf hlen
    by_cases hnil : s.items_ = []
    · exact ⟨[], s, drain_of_empty _ s ((wf_empty_iff s hwf).2 hnil), by simp [hnil],
        by simp, hwf, hnil⟩
    · obtain ⟨h1, h2, h3, h4⟩ := drain_step s hwf hnil
      have hemp : empty s = false := by
        cases h : empty s with
        | false => rfl
        | true => exact absurd ((wf_empty_iff s hwf).1 h) hnil
      obtain ⟨rs, sf, hd, hrs, hall, hwfsf, hsf⟩ := ih _ h3 (by omega)
      have hpair : remove_current (try_next s).2
          = (.ok (), (remove_current (try_next s).2).2) := by
        rw [← h2]
      refine ⟨(try_next s).1 :: rs, sf, ?_, by simp [hrs, h4], ?_, hwfsf, hsf⟩
      · rw [drain]
        simp only [hemp, Bool.false_eq_true, if_false]
        rw [hpair]
        simp only [hd]
      · intro r hr
        rcases List.mem_cons.1 hr with rfl | hr
        · exact h1
        · exact hall r hr

/-- C7. On a container of size `n`, whatever its visited flags, the loop
`while (!empty()) { try_next(); remove_current(); }` ends normally once it has fuel for `n`
iterations: it runs exactly `n` iterations, every `try_next()` in it returns non-null, no
`remove_current()` in it throws, and afterwards `empty()` holds, `size()` is 0 and
`try_next()` returns `nullptr`.  In particular `add`, `try_next()`, `remove_current()` on
a new container leaves it empty. -/
theorem C7_draining_takes_size_iterations (s : RoundRobin α) (hwf : WF s) (fuel : Nat)
    (hfuel : size s ≤ fuel) :
    (∃ rs sf, drain fuel s = some (.ok (rs, sf)) ∧ rs.length = size s ∧
      (∀ r ∈ rs, r ≠ none) ∧ empty sf = true ∧ size sf = 0 ∧ sf.items_ = [] ∧
      (try_next sf).1 = none) ∧
    (∀ (heap : Nat) (v : α),
      (try_next (add (new heap) v)).1 = some (heap, v) ∧
      (remove_current (try_next (add (new heap) v)).2).1 = .ok () ∧
      empty (remove_current (try_next (add (new heap) v)).2).2 = true ∧
      (remove_current (try_next (add (new heap) v)).2).2.items_ = []) := by
  constructor
  · obtain ⟨rs, sf, hd, hrs, hall, hwfsf, hsf⟩ :=
      drain_spec fuel s hwf (by rw [← hwf.count]; exact hfuel)
    refine ⟨rs, sf, hd, by rw [hrs]; exact hwf.count.symm, hall,
      (wf_empty_iff sf hwfsf).2 hsf, ?_, hsf, (try_next_eq_none_iff sf).2 hsf⟩
    simp [size, hwfsf.count, hsf]
  · intro heap v
    refine ⟨rfl, rfl, rfl, rfl⟩

/-- The statement of C7 at the container `sample`, drained with fuel 3. -/
theorem C7_draining_takes_size_iterations_witness :
    WF sample ∧ size sample ≤ 3 ∧
    (∃ rs sf, drain 3 sample = some (.ok (rs, sf)) ∧ rs.length = size sample ∧
      (∀ r ∈ rs, r ≠ none) ∧ empty sf = true ∧ size sf = 0 ∧ sf.items_ = [] ∧
      (try_next sf).1 = none) ∧
    (∀ (heap : Nat) (v : Nat),
      (try_next (add (new heap) v)).1 = some (heap, v) ∧
      (remove_current (try_next (add (new heap) v)).2).1 = .ok () ∧
      empty (remove_current (try_next (add (new heap) v)).2).2 = true ∧
      (remove_current (try_next (add (new heap) v)).2).2.items_ = []) :=
  ⟨wf_sample, by decide, C7_draining_takes_size_iterations sample wf_sample 3 (by decide)⟩

/-! ## Adding in the middle of a cycle -/

/-- C8. In every state, empty or not and whatever the visited flags, the fetch (by
`try_next()` or `next()`) that follows `add(v)` returns the element just added, whichever
elements were still unvisited; it does not take the reset branch and leaves the flag of
every other element as it was. -/
theorem C8_fetch_after_add_returns_the_added_element (s : RoundRobin α) (v : α)
    (viaNext : Bool) :
    (add s v).items_ = { addr := s.heap_, value := v, visited := false } :: s.items_ ∧
    (fetch viaNext (add s v)).1 = some (s.heap_, v) ∧
    all_visited (add s v).items_ = false ∧
    (fetch viaNext (add s v)).2.items_
      = { addr := s.heap_, value := v, visited := true } :: s.items_ := by
  have h := try_next_of_split (add s v) [] { addr := s.heap_, value := v, visited := false }
    s.items_ rfl (by simp) rfl
  rw [fetch_eq, h]
  exact ⟨rfl, rfl, by simp [add, all_visited], rfl⟩

theorem unvisited_eq_nil_iff (l : List (Item α)) :
    unvisited l = [] ↔ all_visited l = true := by
  rw [all_visited_eq_true, unvisited, List.filter_eq_nil_iff]
  simp

theorem map_mark_of_all_visited (l : List (Item α)) (h : ∀ it ∈ l, it.visited = true) :
    l.map Item.mark = l := by
  induction l with
  | nil => rfl
  | cons x xs ih =>
    have hx : x.visited = true := h x (List.mem_cons_self _ _)
    rw [List.map_cons, ih fun it hit => h it (List.mem_cons_of_mem _ hit)]
    cases x
    simp_all [Item.mark]

theorem unvisited_of_all_visited (l : List (Item α)) (h : ∀ it ∈ l, it.visited = true) :
    unvisited l = [] := by
  rw [unvisited_eq_nil_iff, all_visited_eq_true]; exact h

/-- A fetch on a list with an unvisited item returns the first of them and marks it. -/
theorem try_next_unvisited (s : RoundRobin α) (h : all_visited s.items_ = false) :
    ∃ x rest, unvisited s.items_ = x :: rest ∧ (try_next s).1 = some (ptr x) ∧
      unvisited (try_next s).2.items_ = rest ∧
      (try_next s).2.items_.map Item.mark = s.items_.map Item.mark := by
  obtain ⟨pre, x, post, hs, hpre, hx⟩ := all_visited_eq_false _ h
  have hpre' : unvisited pre = [] := unvisited_of_all_visited pre hpre
  rw [try_next_of_split s pre x post hs hpre hx]
  refine ⟨x, unvisited post, ?_, rfl, ?_, ?_⟩
  · rw [hs]
    simp only [unvisited, List.filter_append] at hpre' ⊢
    rw [hpre']
    simp [List.filter_cons, hx]
  · simp only [unvisited, List.filter_append] at hpre' ⊢
    rw [hpre']
    simp [List.filter_cons, Item.mark]
  · rw [hs]
    simp [Item.mark]

/-- As many fetches as there are unvisited items return these items, in list order,
without a reset; they leave every item visited, so that the next fetch resets. -/
theorem fetches_unvisited (n : Nat) :
    ∀ s : RoundRobin α, (unvisited s.items_).length = n →
      fetches n s = (unvisited s.items_).map (fun it => some (ptr it)) ∧
      (∀ j < n, all_visited (afterFetches j s).items_ = false) ∧
      all_visited (afterFetches n s).items_ = true ∧
      (afterFetches n s).items_ = s.items_.map Item.mark := by
  induction n with
  | zero =>
    intro s hs
    have hnil : unvisited s.items_ = [] := List.length_eq_zero.1 hs
    have hall := (unvisited_eq_nil_iff _).1 hnil
    refine ⟨by simp [fetches, hnil], by simp, hall, ?_⟩
    exact (map_mark_of_all_visited _ ((all_visited_eq_true _).1 hall)).symm
  | succ n ih =>
    intro s hs
    have hall : all_visited s.items_ = false := by
      cases h : all_visited s.items_ with
      | false => rfl
      | true => rw [(unvisited_eq_nil_iff _).2 h] at hs; simp at hs
    obtain ⟨x, rest, hx, hres, hrest, hmark⟩ := try_next_unvisited s hall
    have hlen : (unvisited (try_next s).2.items_).length = n := by
      rw [hrest]; rw [hx] at hs; simpa using hs
    obtain ⟨h1, h2, h3, h4⟩ := ih _ hlen
    refine ⟨?_, ?_, h3, ?_⟩
    · rw [fetches, h1, hres, hrest, hx]; rfl
    · intro j hj
      cases j with
      | zero => exact hall
      | succ j => exact h2 j (by omega)
    · rw [afterFetches, h4, hmark]

theorem addr_inj_of_nodup (l : List (Item α)) (h : (addrs l).Nodup) (y z : Item α)
    (hy : y ∈ l) (hz : z ∈ l) (hyz : y.addr = z.addr) : y = z :=
  List.inj_on_of_nodup_map h hy hz hyz

/-- C9. In a state with `k` unvisited elements, after `add(v)` the next `k + 1` calls of
`try_next()` return `v` and then the `k` elements that were unvisited, each once: no node
is returned twice and no element that was visited already is among them.  None of these
calls clears the flags; they leave every element visited, so the call after them does.
Concretely: add A, add B, fetch gives B, add C, and the next two fetches give C and A. -/
theorem C9_added_element_joins_the_running_cycle (s : RoundRobin α) (hwf : WF s) (v : α) :
    fetches ((unvisited s.items_).length + 1) (add s v)
      = some (s.heap_, v) :: (unvisited s.items_).map (fun it => some (ptr it)) ∧
    (fetches ((unvisited s.items_).length + 1) (add s v)).Nodup ∧
    (∀ it ∈ s.items_, it.visited = true →
      ∀ p, some p ∈ fetches ((unvisited s.items_).length + 1) (add s v) → p.1 ≠ it.addr) ∧
    (∀ j ≤ (unvisited s.items_).length,
      all_visited (afterFetches j (add s v)).items_ = false) ∧
    all_visited (afterFetches ((unvisited s.items_).length + 1) (add s v)).items_ = true ∧
    (afterFetches ((unvisited s.items_).length + 1) (add s v)).items_
      = (add s v).items_.map Item.mark ∧
    (try_next (add (add (new 0) "A") "B")).1 = some (1, "B") ∧
    fetches 3 (add (try_next (add (add (new 0) "A") "B")).2 "C")
      = [some (2, "C"), some (0, "A"), some (2, "C")] := by
  have hunv : unvisited (add s v).items_
      = { addr := s.heap_, value := v, visited := false } :: unvisited s.items_ := by
    simp [add, unvisited, List.filter_cons]
  obtain ⟨h1, h2, h3, h4⟩ := fetches_unvisited ((unvisited s.items_).length + 1) (add s v)
    (by rw [hunv]; rfl)
  have hfetch : fetches ((unvisited s.items_).length + 1) (add s v)
      = some (s.heap_, v) :: (unvisited s.items_).map (fun it => some (ptr it)) := by
    rw [h1, hunv]; rfl
  have hsub : (unvisited s.items_).Sublist s.items_ := List.filter_sublist _
  refine ⟨hfetch, ?_, ?_, fun j hj => h2 j (by omega), h3, h4, by decide, by decide⟩
  · apply List.Nodup.of_map (Option.map Prod.fst)
    rw [hfetch]
    simp only [List.map_cons, List.map_map, Option.map_some', List.nodup_cons, List.mem_map,
      Function.comp_apply, ptr, not_exists, not_and]
    constructor
    · intro it hit heq
      have := hwf.fresh it.addr (List.mem_map_of_mem _ (hsub.subset hit))
      simp only [Option.some.injEq] at heq
      omega
    · have hnd : (addrs (unvisited s.items_)).Nodup := (addrs_sublist hsub).nodup hwf.nodup
      have : List.map (Option.map Prod.fst ∘ fun it : Item α => some (it.addr, it.value))
          (unvisited s.items_) = (addrs (unvisited s.items_)).map some := by
        simp [addrs]
      rw [this]
      exact hnd.map (Option.some_injective _)
  · intro it hit hvis p hp
    rw [hfetch] at hp
    rcases List.mem_cons.1 hp with hp | hp
    · simp only [Option.some.injEq] at hp
      subst hp
      have := hwf.fresh it.addr (List.mem_map_of_mem _ hit)
      simp only
      omega
    · obtain ⟨y, hy, hyp⟩ := List.mem_map.1 hp
      simp only [Option.some.injEq] at hyp
      subst hyp
      intro heq
      have hyit := addr_inj_of_nodup s.items_ hwf.nodup y it (hsub.subset hy) hit heq
      have hyv : y.visited = false := by
        have := (List.mem_filter.1 hy).2
        simpa using this
      rw [hyit, hvis] at hyv
      exact absurd hyv (by simp)

/-- The statement of C9 at the container `sample`, with 40 added. -/
theorem C9_added_element_joins_the_running_cycle_witness :
    WF sample ∧
    fetches ((unvisited sample.items_).length + 1) (add sample 40)
      = some (sample.heap_, 40) :: (unvisited sample.items_).map (fun it => some (ptr it)) ∧
    (fetches ((unvisited sample.items_).length + 1) (add sample 40)).Nodup ∧
    (∀ it ∈ sample.items_, it.visited = true →
      ∀ p, some p ∈ fetches ((unvisited sample.items_).length + 1) (add sample 40) →
        p.1 ≠ it.addr) ∧
    (∀ j ≤ (unvisited sample.items_).length,
      all_visited (afterFetches j (add sample 40)).items_ = false) ∧
    all_visited (afterFetches ((unvisited sample.items_).length + 1)
      (add sample 40)).items_ = true ∧
    (afterFetches ((unvisited sample.items_).length + 1) (add sample 40)).items_
      = (add sample 40).items_.map Item.mark ∧
    (try_next (add (add (new 0) "A") "B")).1 = some (1, "B") ∧
    fetches 3 (add (try_next (add (add (new 0) "A") "B")).2 "C")
      = [some (2, "C"), some (0, "A"), some (2, "C")] :=
  ⟨wf_sample, C9_added_element_joins_the_running_cycle sample wf_sample 40⟩

/-! ## The visited flags and the history of the container -/

theorem segments_eq (h : List Event) : segments h = sinceCleared h :: (segments h).tail := by
  induction h with
  | nil => rfl
  | cons e h ih =>
    cases e with
    | inserted a => simpa [segments, sinceCleared] using ih
    | cleared => simp [segments, sinceCleared]
    | returned a =>
      simp only [segments, sinceCleared, List.tail_cons]
      rw [ih]
      rfl

theorem hist_new (heap : Nat) : Hist (new heap : RoundRobin α) [] :=
  ⟨by simp [new, addrs], by simp [new, addrs], by simp [new], by simp [segments],
    by simp [sinceCleared]⟩

theorem hist_add (s : RoundRobin α) (h : List Event) (hh : Hist s h) (v : α) :
    Hist (add s v) (Event.inserted s.heap_ :: h) := by
  refine ⟨?_, ?_, ?_, ?_, ?_⟩
  · simp only [add, addrs, List.map_cons, List.nodup_cons]
    exact ⟨fun hm => Nat.lt_irrefl _ (hh.fresh _ hm), hh.nodup⟩
  · intro a ha
    simp only [add, addrs, List.map_cons, List.mem_cons] at ha ⊢
    rcases ha with rfl | ha
    · omega
    · exact Nat.lt_succ_of_lt (hh.fresh _ ha)
  · intro it hit
    simp only [add, List.mem_cons] at hit
    rcases hit with rfl | hit
    · simp [returnedSince]
    · have hlt := hh.fresh it.addr (List.mem_map_of_mem _ hit)
      have hne : it.addr ≠ s.heap_ := by omega
      simp only [returnedSince, if_neg hne]
      exact hh.flag it hit
  · simpa [segments] using hh.once
  · intro a ha
    simp only [sinceCleared] at ha
    obtain ⟨h1, h2⟩ := hh.seen a ha
    refine ⟨Nat.lt_succ_of_lt h1, ?_⟩
    intro it hit hia
    simp only [add, List.mem_cons] at hit
    rcases hit with rfl | hit
    · simp only at hia; omega
    · exact h2 it hit hia

theorem hist_remove_current (s : RoundRobin α) (h : List Event) (hh : Hist s h) :
    Hist (remove_current s).2 h := by
  have hsub := remove_current_sublist s
  refine ⟨(addrs_sublist hsub).nodup hh.nodup, ?_, fun it hit => hh.flag it (hsub.subset hit),
    hh.once, ?_⟩
  · intro a ha
    rw [remove_current_heap]
    exact hh.fresh a ((addrs_sublist hsub).subset ha)
  · intro a ha
    rw [remove_current_heap]
    exact ⟨(hh.seen a ha).1, fun it hit => (hh.seen a ha).2 it (hsub.subset hit)⟩

theorem hist_try_next (s : RoundRobin α) (h : List Event) (hh : Hist s h) :
    Hist (try_next s).2 ((fetchEvents s).reverse ++ h) := by
  by_cases hnil : s.items_ = []
  · -- nothing to fetch: no event
    have hev : fetchEvents s = [] := by
      simp [fetchEvents, try_next_empty s hnil, hnil]
    rw [hev, try_next_empty s hnil]
    exact ⟨hh.nodup, hh.fresh, hh.flag, hh.once, hh.seen⟩
  · have hne : s.items_.isEmpty = false := by
      cases hs : s.items_ with
      | nil => exact absurd hs hnil
      | cons _ _ => rfl
    cases hall : all_visited s.items_ with
    | false =>
      -- the first unvisited item is returned
      obtain ⟨pre, x, post, hs, hpre, hx⟩ := all_visited_eq_false _ hall
      have ht := try_next_of_split s pre x post hs hpre hx
      have hev : fetchEvents s = [Event.returned x.addr] := by
        simp [fetchEvents, ht, hne, hall, ptr]
      have hxmem : x ∈ s.items_ := by rw [hs]; simp
      have hnd : (addrs (pre ++ x.mark :: post)).Nodup := by
        rw [addrs_mark, ← hs]; exact hh.nodup
      have hmem : ∀ it ∈ pre ++ x.mark :: post, it = x.mark ∨ (it ∈ s.items_ ∧ it.addr ≠ x.addr) := by
        intro it hit
        by_cases hitx : it = x.mark
        · exact Or.inl hitx
        · right
          have hit' : it ∈ s.items_ := by
            rw [hs]
            simp only [List.mem_append, List.mem_cons] at hit ⊢
            rcases hit with hit | hit | hit
            · exact Or.inl hit
            · exact absurd hit hitx
            · exact Or.inr (Or.inr hit)
          refine ⟨hit', fun hia => hitx ?_⟩
          exact addr_inj_of_nodup _ hnd it x.mark hit (by simp) hia
      rw [hev, ht]
      show Hist _ (Event.returned x.addr :: h)
      refine ⟨hnd, ?_, ?_, ?_, ?_⟩
      · intro a ha
        rw [addrs_mark, ← hs] at ha
        exact hh.fresh a ha
      · intro it hit
        rcases hmem it hit with rfl | ⟨hit', hia⟩
        · simp [returnedSince, Item.mark]
        · simp only [returnedSince]
          rw [← hh.flag it hit']
          simp [hia]
      · intro seg hseg
        simp only [segments, List.mem_cons] at hseg
        rcases hseg with rfl | hseg
        · have hhead : (segments h).headD [] = sinceCleared h := by
            rw [segments_eq h]; rfl
          rw [hhead, List.nodup_cons]
          refine ⟨fun hin => ?_, ?_⟩
          · have := (hh.seen x.addr hin).2 x hxmem rfl
            rw [hx] at this
            exact absurd this (by simp)
          · apply hh.once
            rw [segments_eq h]
            exact List.mem_cons_self _ _
        · exact hh.once seg (List.mem_of_mem_tail hseg)
      · intro a ha
        simp only [sinceCleared, List.mem_cons] at ha
        rcases ha with rfl | ha
        · refine ⟨hh.fresh _ (List.mem_map_of_mem _ hxmem), ?_⟩
          intro it hit hia
          rcases hmem it hit with rfl | ⟨-, hne'⟩
          · rfl
          · exact absurd hia hne'
        · refine ⟨(hh.seen a ha).1, ?_⟩
          intro it hit hia
          rcases hmem it hit with rfl | ⟨hit', -⟩
          · rfl
          · exact (hh.seen a ha).2 it hit' hia
    | true =>
      -- every item is visited: the flags are cleared and the head is returned
      obtain ⟨x, xs, hs⟩ := List.exists_cons_of_ne_nil hnil
      have hvis := (all_visited_eq_true _).1 hall
      have ht := try_next_of_all_visited s x xs hs (by rw [← hs]; exact hvis)
      have hev : fetchEvents s = [Event.cleared, Event.returned x.addr] := by
        simp [fetchEvents, ht, hne, hall, ptr]
      have hnd : (addrs (x :: reset_visited xs)).Nodup := by
        have := hh.nodup
        rw [hs] at this
        simpa [addrs, reset_visited] using this
      rw [hev, ht]
      show Hist _ (Event.returned x.addr :: Event.cleared :: h)
      refine ⟨hnd, ?_, ?_, ?_, ?_⟩
      · intro a ha
        apply hh.fresh a
        rw [hs]
        simpa [addrs, reset_visited] using ha
      · intro it hit
        simp only [List.mem_cons] at hit
        rcases hit with rfl | hit
        · simp only [returnedSince]
          simpa using hvis it (by rw [hs]; simp)
        · have hia : it.addr ≠ x.addr := by
            intro hia
            have := addr_inj_of_nodup _ hnd it x (List.mem_cons_of_mem _ hit)
              (List.mem_cons_self _ _) hia
            subst this
            simp only [addrs, List.map_cons, List.nodup_cons] at hnd
            exact hnd.1 (List.mem_map_of_mem _ hit)
          obtain ⟨y, -, rfl⟩ := List.mem_map.1 hit
          simp only [returnedSince]
          simpa using hia
      · intro seg hseg
        simp only [segments, List.headD_cons, List.tail_cons, List.mem_cons] at hseg
        rcases hseg with rfl | hseg
        · simp
        · exact hh.once seg hseg
      · intro a ha
        simp only [sinceCleared, List.mem_cons, List.mem_nil_iff, or_false] at ha
        subst ha
        refine ⟨hh.fresh _ (by rw [hs]; simp [addrs]), ?_⟩
        intro it hit hia
        have := addr_inj_of_nodup _ hnd it x hit (List.mem_cons_self _ _) hia
        rw [this]
        exact hvis x (by rw [hs]; simp)

theorem hist_runLog (ops : List (Op α)) :
    ∀ (s : RoundRobin α) (h : List Event), Hist s h →
      Hist (runLog s h ops).1 (runLog s h ops).2 := by
  induction ops with
  | nil => intro s h hh; exact hh
  | cons op ops ih =>
    intro s h hh
    apply ih
    cases op with
    | add v => exact hist_add s h hh v
    | try_next => exact hist_try_next s h hh
    | next =>
      show Hist (next s).2 ((fetchEvents s).reverse ++ h)
      rw [(next_eq s).1]
      exact hist_try_next s h hh
    | remove_current => exact hist_remove_current s h hh

theorem runLog_fst (ops : List (Op α)) :
    ∀ (s : RoundRobin α) (h : List Event), (runLog s h ops).1 = run s ops := by
  induction ops with
  | nil => intro s h; rfl
  | cons op ops ih => intro s h; exact ih _ _

theorem mem_sinceCleared_of_returnedSince (a : Nat) (h : List Event)
    (ha : returnedSince a h = true) : a ∈ sinceCleared h := by
  induction h with
  | nil => simp [returnedSince] at ha
  | cons e h ih =>
    cases e with
    | inserted b =>
      simp only [returnedSince] at ha
      split_ifs at ha
      exact ih ha
    | cleared => simp [returnedSince] at ha
    | returned b =>
      simp only [returnedSince, Bool.or_eq_true, beq_iff_eq] at ha
      simp only [sinceCleared, List.mem_cons]
      rcases ha with ha | ha
      · exact Or.inl ha
      · exact Or.inr (ih ha)

theorem all_visited_of_cleared (s : RoundRobin α) (h : Event.cleared ∈ fetchEvents s) :
    all_visited s.items_ = true := by
  simp only [fetchEvents, List.mem_append] at h
  rcases h with h | h
  · split_ifs at h with hc
    · simp only [Bool.and_eq_true] at hc
      exact hc.2
    · simp at h
  · cases hres : (try_next s).1 with
    | none => rw [hres] at h; simp at h
    | some p => rw [hres] at h; simp at h

/-- C10. In every state that a sequence of `add`, `try_next()`, `next()` and
`remove_current()` calls reaches from a new container, the visited flag of an element is
true exactly when a fetch has returned that element since the later of its insertion and
the most recent clearing of the flags.  Hence no element is returned twice in a stretch of
the history without a clearing, and when a fetch clears the flags, every element present
has been returned exactly once since the previous clearing. -/
theorem C10_visited_flag_records_the_fetches_of_the_cycle (heap : Nat)
    (ops : List (Op α)) :
    (runLog (new heap) [] ops).1 = run (new heap) ops ∧
    (∀ it ∈ (run (new heap) ops).items_,
      it.visited = true ↔ returnedSince it.addr (runLog (new heap) [] ops).2 = true) ∧
    (∀ seg ∈ segments (runLog (new heap) [] ops).2, seg.Nodup) ∧
    (Event.cleared ∈ fetchEvents (run (new heap) ops) →
      ∀ it ∈ (run (new heap) ops).items_,
        (sinceCleared (runLog (new heap) [] ops).2).count it.addr = 1) := by
  have hh := hist_runLog ops (new heap) [] (hist_new heap)
  have hrun := runLog_fst ops (new heap) ([] : List Event)
  rw [hrun] at hh
  refine ⟨hrun, ?_, hh.once, ?_⟩
  · intro it hit
    rw [hh.flag it hit]
  · intro hc it hit
    have hvis := (all_visited_eq_true _).1 (all_visited_of_cleared _ hc) it hit
    rw [hh.flag it hit] at hvis
    have hmem := mem_sinceCleared_of_returnedSince _ _ hvis
    have hnd : (sinceCleared (runLog (new heap) [] ops).2).Nodup := by
      apply hh.once
      rw [segments_eq]
      exact List.mem_cons_self _ _
    exact List.count_eq_one_of_mem hnd hmem

/-! ## The fetch, case by case -/

theorem scan_eq_none_iff (prev : Iterator) (l : List (Item α)) :
    scan prev l = none ↔ all_visited l = true := by
  constructor
  · intro h
    cases hall : all_visited l with
    | true => rfl
    | false =>
      obtain ⟨pre, x, post, rfl, hpre, hx⟩ := all_visited_eq_false l hall
      rw [scan_append prev pre x post hpre hx] at h
      simp at h
  · intro h
    induction l generalizing prev with
    | nil => rfl
    | cons y ys ih =>
      have hy : y.visited = true := (all_visited_eq_true _).1 h y (List.mem_cons_self _ _)
      have hys : all_visited ys = true := by
        rw [all_visited_eq_true] at h ⊢
        exact fun it hit => h it (List.mem_cons_of_mem _ hit)
      simp [scan, hy, ih _ hys]

/-- C16. On a non-empty container: when some element is unvisited, `try_next()` returns
the first unvisited element counted from the head, sets its flag, changes no other flag
and leaves `current_` at its predecessor, at `before_begin()` when it is the head; when
every element is visited, every flag is cleared, the head is returned and is then the only
visited element, with `current_` at `before_begin()`.  The first case clears no flag. -/
theorem C16_try_next_case_by_case (s : RoundRobin α) (hne : s.items_ ≠ []) :
    (all_visited s.items_ = false →
      ∃ pre x post, s.items_ = pre ++ x :: post ∧ (∀ it ∈ pre, it.visited = true) ∧
        x.visited = false ∧
        try_next s = (some (x.addr, x.value),
          { s with
            items_ := pre ++ { x with visited := true } :: post
            current_ := lastNode .before_begin pre }) ∧
        (pre = [] → lastNode .before_begin pre = .before_begin) ∧
        (∀ ps q, pre = ps ++ [q] → lastNode .before_begin pre = .node q.addr)) ∧
    (all_visited s.items_ = true →
      ∃ x xs, s.items_ = x :: xs ∧
        try_next s = (some (x.addr, x.value),
          { s with
            items_ := { x with visited := true }
              :: xs.map (fun it => { it with visited := false })
            current_ := .before_begin })) := by
  constructor
  · intro hall
    obtain ⟨pre, x, post, hs, hpre, hx⟩ := all_visited_eq_false _ hall
    refine ⟨pre, x, post, hs, hpre, hx, try_next_of_split s pre x post hs hpre hx, ?_, ?_⟩
    · rintro rfl; rfl
    · rintro ps q rfl; exact lastNode_concat _ _ _
  · intro hall
    obtain ⟨x, xs, hs⟩ := List.exists_cons_of_ne_nil hne
    have hvis := (all_visited_eq_true _).1 hall
    refine ⟨x, xs, hs, ?_⟩
    rw [try_next_of_all_visited s x xs hs (by rw [← hs]; exact hvis)]
    have hx : x.visited = true := hvis x (by rw [hs]; simp)
    cases x
    simp_all [reset_visited, ptr]

/-- The statement of C16 at the container `sample`. -/
theorem C16_try_next_case_by_case_witness :
    sample.items_ ≠ [] ∧
    (all_visited sample.items_ = false →
      ∃ pre x post, sample.items_ = pre ++ x :: post ∧ (∀ it ∈ pre, it.visited = true) ∧
        x.visited = false ∧
        try_next sample = (some (x.addr, x.value),
          { sample with
            items_ := pre ++ { x with visited := true } :: post
            current_ := lastNode .before_begin pre }) ∧
        (pre = [] → lastNode .before_begin pre = .before_begin) ∧
        (∀ ps q, pre = ps ++ [q] → lastNode .before_begin pre = .node q.addr)) ∧
    (all_visited sample.items_ = true →
      ∃ x xs, sample.items_ = x :: xs ∧
        try_next sample = (some (x.addr, x.value),
          { sample with
            items_ := { x with visited := true }
              :: xs.map (fun it => { it with visited := false })
            current_ := .before_begin })) :=
  ⟨by decide, C16_try_next_case_by_case sample (by decide)⟩

/-- C17. On a non-empty container, whatever the visited flags, the scan of `try_next()`
that follows the conditional reset returns from inside the loop: the list it runs on has
an unvisited item, `scan` is not `none`, and the result of `try_next()` is the one of the
loop; the code after the loop is not reached. -/
theorem C17_fallback_of_try_next_is_unreachable (s : RoundRobin α) (hne : s.items_ ≠ []) :
    all_visited (if all_visited s.items_ then reset_visited s.items_ else s.items_) = false ∧
    ∃ items cur p,
      scan .before_begin (if all_visited s.items_ then reset_visited s.items_ else s.items_)
        = some (items, cur, p) ∧
      try_next s = (some p, { s with items_ := items, current_ := cur }) := by
  obtain ⟨pre, x, post, heq, hpre, hx, ht⟩ := try_next_nonempty s hne
  have hscan := scan_append .before_begin pre x post hpre hx
  refine ⟨?_, pre ++ x.mark :: post, lastNode .before_begin pre, (x.addr, x.value), ?_, ht⟩
  · cases hall : all_visited
        (if all_visited s.items_ then reset_visited s.items_ else s.items_) with
    | false => rfl
    | true =>
      have := (scan_eq_none_iff .before_begin _).2 hall
      rw [heq, hscan] at this
      simp at this
  · rw [heq, hscan]

/-- The statement of C17 at the container `sample`. -/
theorem C17_fallback_of_try_next_is_unreachable_witness :
    sample.items_ ≠ [] ∧
    all_visited (if all_visited sample.items_ then reset_visited sample.items_
      else sample.items_) = false ∧
    ∃ items cur p,
      scan .before_begin (if all_visited sample.items_ then reset_visited sample.items_
        else sample.items_) = some (items, cur, p) ∧
      try_next sample = (some p, { sample with items_ := items, current_ := cur }) :=
  ⟨by decide, C17_fallback_of_try_next_is_unreachable sample (by decide)⟩

/-- C19. In every state, `try_next()` and `next()` leave `size()` and the head-to-tail
sequence of the nodes and of their values as they were, whether the call returns an
element, returns `nullptr` or throws: only visited flags and `current_` can differ. -/
theorem C19_fetch_changes_only_flags_and_current (s : RoundRobin α) :
    size (try_next s).2 = size s ∧
    values (try_next s).2.items_ = values s.items_ ∧
    addrs (try_next s).2.items_ = addrs s.items_ ∧
    (try_next s).2.items_.length = s.items_.length ∧
    size (next s).2 = size s ∧
    values (next s).2.items_ = values s.items_ ∧
    addrs (next s).2.items_ = addrs s.items_ ∧
    (next s).2.items_.length = s.items_.length := by
  have h := try_next_frame s
  rw [(next_eq s).1]
  exact ⟨h.2.2.1, h.2.1, h.1, try_next_length s, h.2.2.1, h.2.1, h.1, try_next_length s⟩

/-! ## `remove_current()` at any valid position -/

theorem getLast?_append_cons (pre : List (Item α)) (x : Item α) (post : List (Item α)) :
    ∃ z, (pre ++ x :: post).getLast? = some z ∧ z ∈ x :: post := by
  have hne : x :: post ≠ [] := by simp
  refine ⟨(x :: post).getLast hne, ?_, List.getLast_mem hne⟩
  rw [List.getLast?_append_of_ne_nil _ hne, List.getLast?_eq_getLast _ hne]

/-- C20. On a non-empty container whose `current_` is `before_begin()` or a node of the
list, `remove_current()` throws "Invalid current position in RoundRobin" exactly when
`current_` is the last node of the list, and then it changes nothing; it never throws the
empty-container error; in every other case it returns normally and unlinks exactly the
node that follows `current_`, the head when `current_` is `before_begin()`. -/
theorem C20_remove_current_fails_only_at_the_last_node (s : RoundRobin α) (hwf : WF s)
    (hne : s.items_ ≠ []) :
    ((remove_current s).1 = .error .invalidCurrent ↔
      ∃ q, s.items_.getLast? = some q ∧ s.current_ = .node q.addr) ∧
    RuntimeError.invalidCurrent.what = "Invalid current position in RoundRobin" ∧
    (remove_current s).1 ≠ .error .emptyRemove ∧
    ((remove_current s).1 = .error .invalidCurrent → (remove_current s).2 = s) ∧
    ((remove_current s).1 ≠ .error .invalidCurrent →
      (remove_current s).1 = .ok () ∧
      ∃ pre x post, s.items_ = pre ++ x :: post ∧
        (pre = [] → s.current_ = .before_begin) ∧
        (∀ ps q, pre = ps ++ [q] → s.current_ = .node q.addr) ∧
        (remove_current s).2.items_ = pre ++ post ∧
        size (remove_current s).2 + 1 = size s) := by
  have hsize : ∀ t : RoundRobin α, t.count_ = s.count_ → t.count_ ≠ 0 := by
    intro t ht
    rw [ht, hwf.count]
    exact fun h => hne (List.length_eq_zero.1 h)
  have hdecr : decr s.count_ + 1 = s.count_ := by
    have := hsize s rfl
    simp only [decr]
    rw [if_neg this]
    omega
  rcases hwf.current with hc | ⟨a, hc, ha⟩
  · -- `current_` is `before_begin()`: the head is unlinked
    obtain ⟨x, xs, hs⟩ := List.exists_cons_of_ne_nil hne
    rw [remove_current_before_begin s x xs hs hc]
    refine ⟨?_, rfl, by simp, by simp, ?_⟩
    · simp [hc]
    · intro _
      refine ⟨rfl, [], x, xs, hs, fun _ => hc, ?_, rfl, hdecr⟩
      intro ps q h
      simp at h
  · obtain ⟨q, hq, hqa⟩ := List.mem_map.1 ha
    obtain ⟨pre, rest, hs⟩ := List.append_of_mem hq
    have hnd := hwf.nodup
    rw [hs] at hnd
    have hqpre : q.addr ∉ addrs pre := by
      simp only [addrs, List.map_append, List.map_cons] at hnd ⊢
      rw [List.nodup_append] at hnd
      intro hmem
      exact hnd.2.2 hmem (List.mem_cons_self _ _)
    have hc' : s.current_ = .node q.addr := by rw [hc, hqa]
    cases rest with
    | nil =>
      -- `current_` is the last node
      rw [remove_current_last s pre q hs hc' hqpre]
      refine ⟨?_, rfl, by simp, fun _ => rfl, fun h => absurd rfl h⟩
      simp only [true_iff]
      exact ⟨q, by rw [hs]; simp, hc'⟩
    | cons x post =>
      -- a node follows `current_`
      rw [remove_current_node s pre q x post hs hc' hqpre]
      refine ⟨?_, rfl, by simp, by simp, ?_⟩
      · simp only [reduceCtorEq, false_iff, not_exists, not_and]
        intro z hz hcz
        obtain ⟨z', hz', hmem⟩ := getLast?_append_cons (pre ++ [q]) x post
        have hs' : s.items_ = (pre ++ [q]) ++ x :: post := by rw [hs]; simp
        rw [hs', hz'] at hz
        simp only [Option.some.injEq] at hz
        subst hz
        have hza : z'.addr = q.addr := by
          rw [hc'] at hcz
          simpa using hcz.symm
        have hmem' : q.addr ∈ addrs (x :: post) := by
          rw [← hza]; exact List.mem_map_of_mem _ hmem
        simp only [addrs, List.map_append, List.map_cons] at hnd hmem'
        rw [List.nodup_append] at hnd
        exact (List.nodup_cons.1 hnd.2.1).1 hmem'
      · intro _
        refine ⟨rfl, pre ++ [q], x, post, by rw [hs]; simp, ?_, ?_, by simp, hdecr⟩
        · intro h; simp at h
        · intro ps q' h
          obtain ⟨-, hqq⟩ := List.append_inj' h rfl
          simp only [List.cons.injEq, and_true] at hqq
          rw [hc', hqq]

/-- The statement of C20 at the container `sample`, whose `current_` is
`before_begin()`. -/
theorem C20_remove_current_fails_only_at_the_last_node_witness :
    WF sample ∧ sample.items_ ≠ [] ∧
    ((remove_current sample).1 = .error .invalidCurrent ↔
      ∃ q, sample.items_.getLast? = some q ∧ sample.current_ = .node q.addr) ∧
    RuntimeError.invalidCurrent.what = "Invalid current position in RoundRobin" ∧
    (remove_current sample).1 ≠ .error .emptyRemove ∧
    ((remove_current sample).1 = .error .invalidCurrent → (remove_current sample).2 = sample) ∧
    ((remove_current sample).1 ≠ .error .invalidCurrent →
      (remove_current sample).1 = .ok () ∧
      ∃ pre x post, sample.items_ = pre ++ x :: post ∧
        (pre = [] → sample.current_ = .before_begin) ∧
        (∀ ps q, pre = ps ++ [q] → sample.current_ = .node q.addr) ∧
        (remove_current sample).2.items_ = pre ++ post ∧
        size (remove_current sample).2 + 1 = size sample) :=
  ⟨wf_sample, by decide,
    C20_remove_current_fails_only_at_the_last_node sample wf_sample (by decide)⟩

/-! ## Moving a container -/

/-- C11. Move-constructing a container from `s`, or move-assigning `s` to another container
`t`, whatever `t` held: the result has the `size()` that `s` had and the list of `s`, node
by node, so the same head-to-tail sequence of values, and `s` is left with `size() == 0`,
`empty() == true` and an empty list. -/
theorem C11_move_transfers_the_elements (s t : RoundRobin α) :
    size (move_construct s).1 = size s ∧
    (move_construct s).1.items_ = s.items_ ∧
    values (move_construct s).1.items_ = values s.items_ ∧
    size (move_construct s).2 = 0 ∧ empty (move_construct s).2 = true ∧
    (move_construct s).2.items_ = [] ∧
    size (move_assign t s).1 = size s ∧
    (move_assign t s).1.items_ = s.items_ ∧
    values (move_assign t s).1.items_ = values s.items_ ∧
    size (move_assign t s).2 = 0 ∧ empty (move_assign t s).2 = true ∧
    (move_assign t s).2.items_ = [] :=
  ⟨rfl, rfl, rfl, rfl, rfl, rfl, rfl, rfl, rfl, rfl, rfl, rfl⟩

/-- A move leaves both containers with `count_` equal to the number of nodes. -/
theorem move_count (s t : RoundRobin α) (hs : s.count_ = s.items_.length) :
    (move_construct s).1.count_ = (move_construct s).1.items_.length ∧
    (move_construct s).2.count_ = (move_construct s).2.items_.length ∧
    (move_assign t s).1.count_ = (move_assign t s).1.items_.length ∧
    (move_assign t s).2.count_ = (move_assign t s).2.items_.length :=
  ⟨hs, rfl, hs, rfl⟩

/-- As long as `current_` is `before_begin()` or a node of the own list, a second
container does not matter to `remove_current()`. -/
theorem remove_current_shared_of_wf (self other : RoundRobin α) (hwf : WF self) :
    remove_current_shared self other
      = ((remove_current self).1, (remove_current self).2, other) := by
  unfold remove_current_shared
  split_ifs with hemp
  · simp [remove_current, hemp]
  · rcases hwf.current with hc | ⟨a, hc, ha⟩
    · rw [hc]
    · rw [hc]
      simp only [if_pos ha]

/-- C12. The container `a` holds 1, 2, 3 and two calls of `next()` have returned 3 and 2,
so that `current_` is at the node of 3.  `b` is move-constructed from `a`; `a` is empty
with `size() == 0`, and its `current_` still is the node of 3, now in the list of `b`.
After `a.add(9)`, `a.remove_current()` returns normally, unlinks 2 from the list of `b` and
decrements `a.count_`: `a` holds one element with `size() == 0` and `empty() == true`, and
`b` holds two elements with `size() == 3`.  A second `a.remove_current()` unlinks 1 from
the list of `b` and takes `a.count_` from 0 to `SIZE_MAX`. -/
theorem C12_count_after_remove_current_on_a_moved_from_container :
    values fetchedTwice.items_ = [3, 2, 1] ∧ fetchedTwice.current_ = .node 2 ∧
    values (move_construct fetchedTwice).1.items_ = [3, 2, 1] ∧
    size (move_construct fetchedTwice).1 = 3 ∧
    (move_construct fetchedTwice).2.items_ = [] ∧
    size (move_construct fetchedTwice).2 = 0 ∧
    (move_construct fetchedTwice).2.current_ = .node 2 ∧
    movedFromRemove.1 = .ok () ∧
    values movedFromRemove.2.1.items_ = [9] ∧
    size movedFromRemove.2.1 = 0 ∧
    empty movedFromRemove.2.1 = true ∧
    values movedFromRemove.2.2.items_ = [3, 1] ∧
    size movedFromRemove.2.2 = 3 ∧
    (remove_current_shared movedFromRemove.2.1 movedFromRemove.2.2).1 = .ok () ∧
    values (remove_current_shared movedFromRemove.2.1 movedFromRemove.2.2).2.1.items_ = [9] ∧
    size (remove_current_shared movedFromRemove.2.1 movedFromRemove.2.2).2.1
      = 18446744073709551615 ∧
    values (remove_current_shared movedFromRemove.2.1 movedFromRemove.2.2).2.2.items_
      = [3] := by
  decide

/-! ## The shape of every run of fetches -/

theorem afterFetches_add (m n : Nat) (s : RoundRobin α) :
    afterFetches (m + n) s = afterFetches n (afterFetches m s) := by
  induction m generalizing s with
  | zero => simp [afterFetches]
  | succ m ih => rw [Nat.succ_add]; simp only [afterFetches]; exact ih _

theorem fetches_add (m n : Nat) (s : RoundRobin α) :
    fetches (m + n) s = fetches m s ++ fetches n (afterFetches m s) := by
  induction m generalizing s with
  | zero => simp [fetches, afterFetches]
  | succ m ih => rw [Nat.succ_add]; simp only [fetches, afterFetches, ih, List.cons_append]

theorem map_mark_reset_visited (l : List (Item α)) :
    (reset_visited l).map Item.mark = l.map Item.mark := by
  simp [reset_visited, Item.mark]

theorem reset_visited_unvisited (l : List (Item α)) :
    ∀ it ∈ reset_visited l, it.visited = false := by
  intro it hit
  obtain ⟨y, -, rfl⟩ := List.mem_map.1 hit
  rfl

theorem reset_visited_getElem?_ptr (l : List (Item α)) (i : Nat) :
    ((reset_visited l)[i]?).map ptr = (l[i]?).map ptr := by
  simp only [reset_visited, List.getElem?_map, Option.map_map]
  rfl

/-- Once every item is visited, the fetches go round the list in list order. -/
theorem try_next_afterFetches_all_visited (s : RoundRobin α) (hne : s.items_ ≠ [])
    (hall : all_visited s.items_ = true) (j : Nat) :
    (try_next (afterFetches j s)).1 = (s.items_[j % s.items_.length]?).map ptr := by
  have hvis := (all_visited_eq_true _).1 hall
  have hne' : reset_visited s.items_ ≠ [] := by
    simpa [reset_visited] using hne
  have hlen : (reset_visited s.items_).length = s.items_.length := by simp [reset_visited]
  have hs : s.items_ = marked (reset_visited s.items_).length (reset_visited s.items_) := by
    simp only [marked, List.take_length, List.drop_length, List.append_nil]
    rw [map_mark_reset_visited, map_mark_of_all_visited _ hvis]
  have h := try_next_afterFetches_marked (reset_visited s.items_)
    (reset_visited_unvisited _) hne' j s _ (Nat.le_refl _) hs
  rw [h, hlen, Nat.add_mod_left, reset_visited_getElem?_ptr]

/-- C18. From a state with `n ≥ 1` elements of which `k` are unvisited, the first `k` calls
of `try_next()` return the unvisited elements in head-to-tail order, none of them taking
the reset branch; the calls after them go round the list: call number `k + j` (`j ≥ 1`)
returns the element at list position `(j - 1) mod n`.  With `k = 0` the run goes round
the list from the first call. -/
theorem C18_run_of_fetches (s : RoundRobin α) (hne : s.items_ ≠ []) :
    fetches (unvisited s.items_).length s
      = (unvisited s.items_).map (fun it => some (it.addr, it.value)) ∧
    (∀ i < (unvisited s.items_).length, all_visited (afterFetches i s).items_ = false) ∧
    (∀ j, 1 ≤ j →
      ∃ it, s.items_[(j - 1) % s.items_.length]? = some it ∧
        (try_next (afterFetches ((unvisited s.items_).length + j - 1) s)).1
          = some (it.addr, it.value)) := by
  obtain ⟨h1, h2, h3, h4⟩ := fetches_unvisited (unvisited s.items_).length s rfl
  refine ⟨h1, h2, ?_⟩
  intro j hj
  have hpos : 0 < s.items_.length := List.length_pos.2 hne
  have hlt : (j - 1) % s.items_.length < s.items_.length := Nat.mod_lt _ hpos
  refine ⟨s.items_[(j - 1) % s.items_.length], List.getElem?_eq_getElem hlt, ?_⟩
  have hne' : (afterFetches (unvisited s.items_).length s).items_ ≠ [] := by
    rw [h4]; simpa using hne
  have hlen : (afterFetches (unvisited s.items_).length s).items_.length = s.items_.length := by
    rw [h4]; simp
  have h := try_next_afterFetches_all_visited _ hne' h3 (j - 1)
  rw [← afterFetches_add, hlen, h4] at h
  rw [show (unvisited s.items_).length + j - 1 = (unvisited s.items_).length + (j - 1) by omega,
    h, List.getElem?_map, List.getElem?_eq_getElem hlt]
  rfl

/-- The statement of C18 at the container `sample`. -/
theorem C18_run_of_fetches_witness :
    sample.items_ ≠ [] ∧
    fetches (unvisited sample.items_).length sample
      = (unvisited sample.items_).map (fun it => some (it.addr, it.value)) ∧
    (∀ i < (unvisited sample.items_).length,
      all_visited (afterFetches i sample).items_ = false) ∧
    (∀ j, 1 ≤ j →
      ∃ it, sample.items_[(j - 1) % sample.items_.length]? = some it ∧
        (try_next (afterFetches ((unvisited sample.items_).length + j - 1) sample)).1
          = some (it.addr, it.value)) :=
  ⟨by decide, C18_run_of_fetches sample (by decide)⟩

theorem fetches_take (m d : Nat) (s : RoundRobin α) :
    (fetches (m + d) s).take m = fetches m s := by
  rw [fetches_add]
  exact List.take_left' (fetches_length m s)

/-- From a state in which every item is visited, as many fetches as there are items return
the items in list order and lead back to the same list. -/
theorem fetches_cycle (s : RoundRobin α) (hne : s.items_ ≠ [])
    (hall : all_visited s.items_ = true) :
    fetches s.items_.length s = s.items_.map (fun it => some (ptr it)) ∧
      (afterFetches s.items_.length s).items_ = s.items_ := by
  obtain ⟨x, xs, hs⟩ := List.exists_cons_of_ne_nil hne
  have hvis := (all_visited_eq_true _).1 hall
  have ht := try_next_of_all_visited s x xs hs (by rw [← hs]; exact hvis)
  have hx : x.visited = true := hvis x (by rw [hs]; simp)
  have hunv : unvisited (try_next s).2.items_ = reset_visited xs := by
    rw [ht]
    simp only [unvisited, List.filter_cons, hx, Bool.not_true, Bool.false_eq_true, if_false]
    rw [List.filter_eq_self]
    intro it hit
    simp [reset_visited_unvisited xs it hit]
  have hlen : (unvisited (try_next s).2.items_).length = xs.length := by
    rw [hunv]; simp [reset_visited]
  obtain ⟨h1, -, -, h4⟩ := fetches_unvisited xs.length (try_next s).2 hlen
  rw [hs, List.length_cons]
  constructor
  · rw [fetches, h1, hunv, ht]
    simp [reset_visited, ptr]
  · rw [afterFetches, h4, ht]
    simp only [List.map_cons, map_mark_reset_visited]
    rw [← List.map_cons, map_mark_of_all_visited _ (by rw [← hs]; exact hvis)]

theorem fetches_cycles (c : Nat) :
    ∀ s : RoundRobin α, s.items_ ≠ [] → all_visited s.items_ = true →
      fetches (c * s.items_.length) s
        = (List.replicate c (s.items_.map fun it => some (ptr it))).flatten := by
  induction c with
  | zero => intro s _ _; simp [fetches]
  | succ c ih =>
    intro s hne hall
    obtain ⟨h1, h2⟩ := fetches_cycle s hne hall
    have h3 := ih (afterFetches s.items_.length s) (by rw [h2]; exact hne) (by rw [h2]; exact hall)
    rw [h2] at h3
    rw [Nat.succ_mul, Nat.add_comm, fetches_add, h1, h3, List.replicate_succ,
      List.flatten_cons]

/-- Every run of fetches: first the unvisited items, then rounds of the whole list. -/
theorem fetches_rounds (s : RoundRobin α) (hne : s.items_ ≠ []) (c : Nat) :
    fetches ((unvisited s.items_).length + c * s.items_.length) s
      = (unvisited s.items_).map (fun it => some (ptr it))
        ++ (List.replicate c (s.items_.map fun it => some (ptr it))).flatten := by
  obtain ⟨h1, -, h3, h4⟩ := fetches_unvisited (unvisited s.items_).length s rfl
  have hne' : (afterFetches (unvisited s.items_).length s).items_ ≠ [] := by
    rw [h4]; simpa using hne
  have h := fetches_cycles c (afterFetches (unvisited s.items_).length s) hne' h3
  rw [h4] at h
  simp only [List.length_map, List.map_map] at h
  rw [fetches_add, h1, h]
  rfl

/-! ## Removal in the middle of a cycle -/

theorem filter_ptr_of_not_mem (a : Nat) (l : List (Item α)) (ha : a ∉ addrs l) :
    (l.map fun it => some (ptr it)).filter (fun r => decide (r.map Prod.fst ≠ some a))
      = l.map fun it => some (ptr it) := by
  rw [List.filter_eq_self]
  intro r hr
  obtain ⟨it, hit, rfl⟩ := List.mem_map.1 hr
  simp only [Option.map_some', ptr, ne_eq, Option.some.injEq, decide_eq_true_eq]
  intro h
  exact ha (by rw [← h]; exact List.mem_map_of_mem _ hit)

/-- C13. On a container with at least two elements, `try_next()` returns an element `e` and
`remove_current()` unlinks it: the other elements keep their values, their flags and their
order, and for every `m` the first `m` results of the `try_next()` calls that follow are the
first `m` results that `try_next()` would have given without the removal, with the
occurrences of `e` left out. -/
theorem C13_removal_does_not_delay_the_others (s : RoundRobin α) (hwf : WF s)
    (h2 : 2 ≤ s.items_.length) :
    ∃ (a : Nat) (v : α) (pre post : List (Item α)),
      (try_next s).1 = some (a, v) ∧
      (try_next s).2.items_ = pre ++ { addr := a, value := v, visited := true } :: post ∧
      (remove_current (try_next s).2).1 = .ok () ∧
      (remove_current (try_next s).2).2.items_ = pre ++ post ∧
      ∀ m, ∃ n,
        m ≤ ((fetches n (try_next s).2).filter
              (fun r => decide (r.map Prod.fst ≠ some a))).length ∧
        fetches m (remove_current (try_next s).2).2
          = ((fetches n (try_next s).2).filter
              (fun r => decide (r.map Prod.fst ≠ some a))).take m := by
  have hne : s.items_ ≠ [] := by
    intro h; rw [h] at h2; simp at h2
  obtain ⟨pre, x, post, heq, -, -, ht⟩ := try_next_nonempty s hne
  have haddrs : addrs s.items_ = addrs (pre ++ x :: post) := by
    rw [← heq]; split_ifs <;> simp
  have hnd : (addrs (pre ++ x.mark :: post)).Nodup := by
    rw [addrs_mark, ← haddrs]; exact hwf.nodup
  have hrem := remove_current_after s pre x.mark post hnd
  have hr : remove_current (try_next s).2 = (.ok (),
      { items_ := pre ++ post
        current_ := if (pre ++ post).isEmpty then .before_begin
          else lastNode .before_begin pre
        count_ := decr s.count_
        heap_ := s.heap_ }) := by
    rw [ht]; exact hrem
  have hlen : s.items_.length = pre.length + (post.length + 1) := by
    have := congrArg List.length haddrs
    simpa [addrs] using this
  have hne2 : pre ++ post ≠ [] := by
    intro h
    have := congrArg List.length h
    simp only [List.length_append, List.length_nil] at this
    omega
  have hapre : x.addr ∉ addrs pre := by
    simp only [addrs, List.map_append, List.map_cons, Item.mark] at hnd ⊢
    rw [List.nodup_middle, List.nodup_cons] at hnd
    exact fun h => hnd.1 (List.mem_append_left _ h)
  have hapost : x.addr ∉ addrs post := by
    simp only [addrs, List.map_append, List.map_cons, Item.mark] at hnd ⊢
    rw [List.nodup_middle, List.nodup_cons] at hnd
    exact fun h => hnd.1 (List.mem_append_right _ h)
  have hunv : unvisited (pre ++ x.mark :: post) = unvisited (pre ++ post) := by
    simp [unvisited, List.filter_append, List.filter_cons, Item.mark]
  have haunv : x.addr ∉ addrs (unvisited (pre ++ post)) := by
    intro h
    have hsub : (unvisited (pre ++ post)).Sublist (pre ++ post) := List.filter_sublist _
    have := (addrs_sublist hsub).subset h
    simp only [addrs, List.map_append, List.mem_append] at this
    exact this.elim hapre hapost
  refine ⟨x.addr, x.value, pre, post, by rw [ht], by rw [ht]; rfl, by rw [hr], by rw [hr], ?_⟩
  intro m
  have hA := fetches_rounds (try_next s).2 (by rw [ht]; simp) m
  have hB := fetches_rounds (remove_current (try_next s).2).2 (by rw [hr]; exact hne2) m
  rw [hr] at hB
  rw [ht] at hA
  simp only at hA hB
  rw [hunv] at hA
  have hfilter : ((fetches ((unvisited (pre ++ post)).length
        + m * (pre ++ x.mark :: post).length) (try_next s).2).filter
        (fun r => decide (r.map Prod.fst ≠ some x.addr)))
      = fetches ((unvisited (pre ++ post)).length + m * (pre ++ post).length)
          (remove_current (try_next s).2).2 := by
    rw [hr, ht, hA, hB, List.filter_append, filter_ptr_of_not_mem _ _ haunv,
      List.filter_flatten, List.map_replicate]
    congr 3
    rw [List.map_append, List.map_cons, List.filter_append, List.filter_cons,
      filter_ptr_of_not_mem _ _ hapre, filter_ptr_of_not_mem _ _ hapost, List.map_append]
    simp [ptr, Item.mark]
  refine ⟨(unvisited (pre ++ post)).length + m * (pre ++ x.mark :: post).length, ?_, ?_⟩
  · rw [hfilter, fetches_length]
    have h1 : 1 ≤ (pre ++ post).length := List.length_pos.2 hne2
    calc m = m * 1 := (Nat.mul_one m).symm
      _ ≤ m * (pre ++ post).length := Nat.mul_le_mul_left m h1
      _ ≤ _ := Nat.le_add_left _ _
  · rw [hfilter]
    have h1 : 1 ≤ (pre ++ post).length := List.length_pos.2 hne2
    have hm : m ≤ (unvisited (pre ++ post)).length + m * (pre ++ post).length :=
      calc m = m * 1 := (Nat.mul_one m).symm
        _ ≤ m * (pre ++ post).length := Nat.mul_le_mul_left m h1
        _ ≤ _ := Nat.le_add_left _ _
    obtain ⟨d, hd⟩ := Nat.exists_eq_add_of_le hm
    rw [hd, fetches_take]

/-- The statement of C13 at the container `sample`. -/
theorem C13_removal_does_not_delay_the_others_witness :
    WF sample ∧ 2 ≤ sample.items_.length ∧
    ∃ (a : Nat) (v : Nat) (pre post : List (Item Nat)),
      (try_next sample).1 = some (a, v) ∧
      (try_next sample).2.items_ = pre ++ { addr := a, value := v, visited := true } :: post ∧
      (remove_current (try_next sample).2).1 = .ok () ∧
      (remove_current (try_next sample).2).2.items_ = pre ++ post ∧
      ∀ m, ∃ n,
        m ≤ ((fetches n (try_next sample).2).filter
              (fun r => decide (r.map Prod.fst ≠ some a))).length ∧
        fetches m (remove_current (try_next sample).2).2
          = ((fetches n (try_next sample).2).filter
              (fun r => decide (r.map Prod.fst ≠ some a))).take m :=
  ⟨wf_sample, by decide, C13_removal_does_not_delay_the_others sample wf_sample (by decide)⟩

/-! ## Calls dealt out to workers -/

theorem mem_received (results : List (Option α)) (assign : List Nat) (w i : Nat) (v : α)
    (hr : results[i]? = some (some v)) (ha : assign[i]? = some w) :
    v ∈ received results assign w := by
  simp only [received, List.mem_filterMap, List.mem_filter]
  refine ⟨(some v, w), ⟨?_, by simp⟩, rfl⟩
  exact List.mem_iff_getElem?.2 ⟨i, List.getElem?_zip_eq_some.2 ⟨hr, ha⟩⟩

theorem nextValues_abc :
    ∀ i < 30, (nextValues 30 abc)[i]? = some (["C", "B", "A"][i % 3]?) := by
  decide

/-- C15, as the code has it.  The 30 calls of `next()` on the container holding A, B, C,
made one at a time, return C, B, A in rotation, so a worker receives each of A, B and C
at least once when the positions of its calls cover the three residues modulo 3. -/
theorem C15_worker_receives_what_its_positions_cover (assign : List Nat) (w : Nat)
    (h : ∀ r < 3, ∃ i < 30, i % 3 = r ∧ assign[i]? = some w) :
    "A" ∈ received (nextValues 30 abc) assign w ∧
    "B" ∈ received (nextValues 30 abc) assign w ∧
    "C" ∈ received (nextValues 30 abc) assign w := by
  obtain ⟨i0, hi0, hr0, ha0⟩ := h 0 (by decide)
  obtain ⟨i1, hi1, hr1, ha1⟩ := h 1 (by decide)
  obtain ⟨i2, hi2, hr2, ha2⟩ := h 2 (by decide)
  have h0 := nextValues_abc i0 hi0
  have h1 := nextValues_abc i1 hi1
  have h2 := nextValues_abc i2 hi2
  rw [hr0] at h0
  rw [hr1] at h1
  rw [hr2] at h2
  exact ⟨mem_received _ _ _ i2 _ h2 ha2, mem_received _ _ _ i1 _ h1 ha1,
    mem_received _ _ _ i0 _ h0 ha0⟩

/-- The statement above for worker 0 when the workers make their ten calls in a row. -/
theorem C15_worker_receives_what_its_positions_cover_witness :
    (∀ r < 3, ∃ i < 30, i % 3 = r ∧
      (List.replicate 10 0 ++ List.replicate 10 1 ++ List.replicate 10 2)[i]? = some 0) ∧
    "A" ∈ received (nextValues 30 abc)
      (List.replicate 10 0 ++ List.replicate 10 1 ++ List.replicate 10 2) 0 ∧
    "B" ∈ received (nextValues 30 abc)
      (List.replicate 10 0 ++ List.replicate 10 1 ++ List.replicate 10 2) 0 ∧
    "C" ∈ received (nextValues 30 abc)
      (List.replicate 10 0 ++ List.replicate 10 1 ++ List.replicate 10 2) 0 :=
  ⟨by decide,
    C15_worker_receives_what_its_positions_cover
      (List.replicate 10 0 ++ List.replicate 10 1 ++ List.replicate 10 2) 0 (by decide)⟩

/-- C15 fails when the workers take turns: the assignment `inTurn` deals the 30 calls out
with ten calls to each of the workers 0, 1, 2, and worker 0 receives C ten times, never A
and never B. -/
theorem C15_workers_in_turn_receive_one_element_each :
    inTurn.length = 30 ∧
    (∀ w < 3, inTurn.count w = 10) ∧
    received (nextValues 30 abc) inTurn 0 = List.replicate 10 "C" ∧
    received (nextValues 30 abc) inTurn 1 = List.replicate 10 "B" ∧
    received (nextValues 30 abc) inTurn 2 = List.replicate 10 "A" ∧
    "A" ∉ received (nextValues 30 abc) inTurn 0 ∧
    "B" ∉ received (nextValues 30 abc) inTurn 0 := by
  decide

/-! ## Processing the vectors -/

theorem store_items (a : Nat) (v : α) (s : RoundRobin α) (pre : List (Item α)) (x : Item α)
    (post : List (Item α)) (hs : s.items_ = pre ++ x :: post) (hx : x.addr = a)
    (hpre : a ∉ addrs pre) (hpost : a ∉ addrs post) :
    store a v s = { s with items_ := pre ++ { x with value := v } :: post } := by
  have hid : ∀ l : List (Item α), a ∉ addrs l →
      l.map (fun it => if it.addr = a then { it with value := v } else it) = l := by
    intro l hl
    induction l with
    | nil => rfl
    | cons y ys ih =>
      simp only [addrs, List.map_cons, List.mem_cons, not_or] at hl
      have hy : ¬ y.addr = a := fun h => hl.1 h.symm
      simp only [List.map_cons, if_neg hy]
      rw [ih (by simpa [addrs] using hl.2)]
  simp only [store, hs, List.map_append, List.map_cons, hid pre hpre, hid post hpost,
    if_pos hx]

theorem wf_addAll (vs : List α) :
    ∀ s : RoundRobin α, WF s → s.count_ + vs.length ≤ SIZE_MAX → WF (addAll s vs) := by
  induction vs with
  | nil => intro s hwf _; exact hwf
  | cons v vs ih =>
    intro s hwf hc
    simp only [List.length_cons] at hc
    apply ih _ (wf_add s hwf (by omega) v)
    have : (add s v).count_ = s.count_ + 1 := by
      simp only [add, incr]
      rw [if_neg (by omega)]
    omega

/-- One iteration of the loop on a container whose vectors are all non-empty: the vector
`c ++ [z]` that `next()` returns loses `z`, which is appended to `processed`, and is
removed when `c` is empty; the other vectors stay. -/
theorem processStep_spec (s : RoundRobin (List Int)) (hwf : WF s) (hne : s.items_ ≠ [])
    (hval : ∀ w ∈ values s.items_, w ≠ []) :
    ∃ (c : List Int) (z : Int) (vpre vpost : List (List Int)) (s' : RoundRobin (List Int)),
      processStep s = .ok ([z], s') ∧ WF s' ∧
      values s.items_ = vpre ++ (c ++ [z]) :: vpost ∧
      values s'.items_ = (if c = [] then vpre ++ vpost else vpre ++ c :: vpost) := by
  obtain ⟨pre, x, post, heq, -, -, ht⟩ := try_next_nonempty s hne
  have haddrs : addrs s.items_ = addrs (pre ++ x :: post) := by
    rw [← heq]; split_ifs <;> simp
  have hvalues : values s.items_ = values (pre ++ x :: post) := by
    rw [← heq]; split_ifs <;> simp
  have hnd : (addrs (pre ++ x.mark :: post)).Nodup := by
    rw [addrs_mark, ← haddrs]; exact hwf.nodup
  have hapre : x.addr ∉ addrs pre := by
    simp only [addrs, List.map_append, List.map_cons, Item.mark] at hnd ⊢
    rw [List.nodup_middle, List.nodup_cons] at hnd
    exact fun h => hnd.1 (List.mem_append_left _ h)
  have hapost : x.addr ∉ addrs post := by
    simp only [addrs, List.map_append, List.map_cons, Item.mark] at hnd ⊢
    rw [List.nodup_middle, List.nodup_cons] at hnd
    exact fun h => hnd.1 (List.mem_append_right _ h)
  have hxne : x.value ≠ [] := hval _ (by rw [hvalues]; simp [values])
  obtain ⟨c, z, hcz⟩ : ∃ c z, x.value = c ++ [z] := by
    rcases List.eq_nil_or_concat x.value with h | ⟨c, z, h⟩
    · exact absurd h hxne
    · exact ⟨c, z, by rw [h, List.concat_eq_append]⟩
  have hnext : next s = (.ok (x.addr, x.value),
      { s with items_ := pre ++ x.mark :: post, current_ := lastNode .before_begin pre }) := by
    have h := next_eq s
    rw [ht] at h
    exact Prod.ext h.2 h.1
  have hwf1 : WF ({ items_ := pre ++ x.mark :: post
                    current_ := lastNode .before_begin pre
                    count_ := s.count_
                    heap_ := s.heap_ } : RoundRobin (List Int)) := by
    have := wf_try_next s hwf
    rw [ht] at this
    exact this
  have hstore : store x.addr c
      ({ items_ := pre ++ x.mark :: post
         current_ := lastNode .before_begin pre
         count_ := s.count_
         heap_ := s.heap_ } : RoundRobin (List Int))
      = { items_ := pre ++ ⟨x.addr, c, true⟩ :: post
          current_ := lastNode .before_begin pre
          count_ := s.count_
          heap_ := s.heap_ } :=
    store_items x.addr c _ pre x.mark post rfl rfl hapre hapost
  have hwf2 : WF ({ items_ := pre ++ ⟨x.addr, c, true⟩ :: post
                    current_ := lastNode .before_begin pre
                    count_ := s.count_
                    heap_ := s.heap_ } : RoundRobin (List Int)) :=
    ⟨by simpa [addrs, Item.mark] using hwf1.nodup,
      by simpa [addrs, Item.mark] using hwf1.fresh,
      by simpa [addrs, Item.mark] using hwf1.current,
      by simpa using hwf1.count⟩
  have hlast : x.value.getLast? = some z := by rw [hcz]; simp
  have hdrop : x.value.dropLast = c := by rw [hcz]; simp
  have hv : values s.items_ = values pre ++ (c ++ [z]) :: values post := by
    rw [hvalues, ← hcz]; simp [values]
  by_cases hc : c = []
  · -- the vector is emptied and removed
    have hrem := remove_current_after s pre (⟨x.addr, c, true⟩ : Item (List Int)) post
      (by simpa [addrs, Item.mark] using hnd)
    refine ⟨c, z, values pre, values post,
      { items_ := pre ++ post
        current_ := if (pre ++ post).isEmpty then .before_begin
          else lastNode .before_begin pre
        count_ := decr s.count_
        heap_ := s.heap_ }, ?_, ?_, hv, ?_⟩
    · have hemp : c.isEmpty = true := by rw [hc]; rfl
      simp only [processStep, hnext, hlast, hdrop, hemp, if_true, hstore]
      rw [hrem]
    · have := wf_remove_current _ hwf2
      rw [hrem] at this
      exact this
    · simp [values, hc]
  · refine ⟨c, z, values pre, values post,
      { items_ := pre ++ ⟨x.addr, c, true⟩ :: post
        current_ := lastNode .before_begin pre
        count_ := s.count_
        heap_ := s.heap_ }, ?_, hwf2, hv, ?_⟩
    · have hemp : c.isEmpty = false := by
        cases c with
        | nil => exact absurd rfl hc
        | cons _ _ => rfl
      simp only [processStep, hnext, hlast, hdrop, hemp, Bool.false_eq_true, if_false, hstore]
    · simp [values, hc]

theorem processLoop_of_empty (fuel : Nat) (s : RoundRobin (List Int)) (h : empty s = true) :
    processLoop fuel s = some (.ok ([], 0, s)) := by
  cases fuel <;> simp [processLoop, h]

theorem total_pos (items : List (Item (List Int))) (hne : items ≠ [])
    (hval : ∀ w ∈ values items, w ≠ []) : 0 < total items := by
  obtain ⟨x, xs, rfl⟩ := List.exists_cons_of_ne_nil hne
  have hx : x.value ≠ [] := hval _ (by simp [values])
  have := List.length_pos.2 hx
  simp only [total, values, List.map_cons, List.sum_cons]
  omega

/-- With fuel for one iteration per integer, the loop over a container of non-empty
vectors ends normally on the empty container, after one iteration per integer, and what
it appends holds every vector reversed as a subsequence. -/
theorem processLoop_spec (fuel : Nat) :
    ∀ s : RoundRobin (List Int), WF s → (∀ w ∈ values s.items_, w ≠ []) →
      total s.items_ ≤ fuel →
      ∃ processed sf, processLoop fuel s = some (.ok (processed, total s.items_, sf)) ∧
        processed.length = total s.items_ ∧ sf.items_ = [] ∧ empty sf = true ∧
        ∀ w ∈ values s.items_, w.reverse.Sublist processed := by
  induction fuel with
  | zero =>
    intro s hwf hval hfuel
    have hnil : s.items_ = [] := by
      by_contra hne
      have := total_pos _ hne hval
      omega
    have hemp := (wf_empty_iff s hwf).2 hnil
    exact ⟨[], s, by rw [processLoop_of_empty _ s hemp, hnil]; rfl, by rw [hnil]; rfl, hnil,
      hemp, by rw [hnil]; simp [values]⟩
  | succ fuel ih =>
    intro s hwf hval hfuel
    by_cases hnil : s.items_ = []
    · have hemp := (wf_empty_iff s hwf).2 hnil
      exact ⟨[], s, by rw [processLoop_of_empty _ s hemp, hnil]; rfl, by rw [hnil]; rfl,
        hnil, hemp, by rw [hnil]; simp [values]⟩
    · have hemp : empty s = false := by
        cases h : empty s with
        | false => rfl
        | true => exact absurd ((wf_empty_iff s hwf).1 h) hnil
      obtain ⟨c, z, vpre, vpost, s', hstep, hwf', hv, hv'⟩ := processStep_spec s hwf hnil hval
      have htotal : total s'.items_ + 1 = total s.items_ := by
        simp only [total, hv, hv']
        split_ifs with hc
        · subst hc
          simp only [List.map_append, List.map_cons, List.sum_append, List.sum_cons,
            List.nil_append, List.length_singleton]
          omega
        · simp only [List.map_append, List.map_cons, List.sum_append, List.sum_cons,
            List.length_append, List.length_singleton]
          omega
      have hval' : ∀ w ∈ values s'.items_, w ≠ [] := by
        intro w hw
        rw [hv'] at hw
        split_ifs at hw with hc
        · apply hval w
          rw [hv]
          simp only [List.mem_append, List.mem_cons] at hw ⊢
          rcases hw with hw | hw
          · exact Or.inl hw
          · exact Or.inr (Or.inr hw)
        · simp only [List.mem_append, List.mem_cons] at hw
          rcases hw with hw | rfl | hw
          · exact hval w (by rw [hv]; simp [hw])
          · exact hc
          · exact hval w (by rw [hv]; simp [hw])
      obtain ⟨processed, sf, hloop, hlen, hsf, hempf, hsub⟩ := ih s' hwf' hval' (by omega)
      refine ⟨z :: processed, sf, ?_, by simp [hlen, htotal], hsf, hempf, ?_⟩
      · rw [processLoop]
        simp only [hemp, Bool.false_eq_true, if_false, hstep, hloop, htotal,
          List.singleton_append]
      · intro w hw
        rw [hv] at hw
        simp only [List.mem_append, List.mem_cons] at hw
        have hkeep : ∀ u, u ∈ vpre ∨ u ∈ vpost → u ∈ values s'.items_ := by
          intro u hu
          rw [hv']
          split_ifs
          · simpa using hu
          · simp only [List.mem_append, List.mem_cons]
            rcases hu with hu | hu
            · exact Or.inl hu
            · exact Or.inr (Or.inr hu)
        rcases hw with hw | rfl | hw
        · exact (hsub w (hkeep w (Or.inl hw))).cons z
        · rw [List.reverse_append, List.reverse_singleton, List.singleton_append]
          apply List.Sublist.cons₂
          by_cases hc : c = []
          · rw [hc]; simp
          · apply hsub
            rw [hv', if_neg hc]
            simp
        · exact (hsub w (hkeep w (Or.inr hw))).cons z

/-- C14. Non-empty integer vectors are added to a new container; the loop
`while (!empty()) { v = next(); processed.push_back(v.back()); v.pop_back();
if (v.empty()) remove_current(); }`, given fuel for one iteration per integer, ends
normally after exactly as many iterations as there are integers, with the container
empty, and `processed` holds every vector's integers in reverse order as a subsequence.
For {11,12,13}, {24,25,26,27}, {37,38,39} it is 39, 27, 13, 38, 26, 12, 37, 25, 11, 24. -/
theorem C14_vector_processing (heap : Nat) (vs : List (List Int))
    (hvs : ∀ v ∈ vs, v ≠ []) (hlen : vs.length ≤ SIZE_MAX) (fuel : Nat)
    (hfuel : (vs.map List.length).sum ≤ fuel) :
    (∃ processed sf,
      processLoop fuel (addAll (new heap) vs)
        = some (.ok (processed, (vs.map List.length).sum, sf)) ∧
      processed.length = (vs.map List.length).sum ∧
      sf.items_ = [] ∧ empty sf = true ∧
      ∀ v ∈ vs, v.reverse.Sublist processed) ∧
    processLoop 10 (addAll (new 0) [[11, 12, 13], [24, 25, 26, 27], [37, 38, 39]])
      = some (.ok ([39, 27, 13, 38, 26, 12, 37, 25, 11, 24], 10,
          { items_ := [], current_ := .before_begin, count_ := 0, heap_ := 3 })) := by
  have hwf : WF (addAll (new heap) vs) :=
    wf_addAll vs (new heap) (wf_new heap) (by simpa [new] using hlen)
  have hvalues : values (addAll (new heap) vs).items_ = vs.reverse := by
    rw [addAll_items]
    simp only [new, List.append_nil, values, List.map_reverse]
    have := values_nodes heap vs
    simp only [values] at this
    rw [this]
  have htotal : total (addAll (new heap) vs).items_ = (vs.map List.length).sum := by
    rw [total, hvalues, List.map_reverse, List.sum_reverse]
  have hval : ∀ w ∈ values (addAll (new heap) vs).items_, w ≠ [] := by
    intro w hw
    rw [hvalues] at hw
    exact hvs w (List.mem_reverse.1 hw)
  obtain ⟨processed, sf, hloop, hplen, hsf, hemp, hsub⟩ :=
    processLoop_spec fuel _ hwf hval (by rw [htotal]; exact hfuel)
  rw [htotal] at hloop hplen
  refine ⟨⟨processed, sf, hloop, hplen, hsf, hemp, ?_⟩, by decide⟩
  intro v hv
  exact hsub v (by rw [hvalues]; exact List.mem_reverse.2 hv)

/-- The statement of C14 for the vectors of the test fixture. -/
theorem C14_vector_processing_witness :
    (∀ v ∈ [[11, 12, 13], [24, 25, 26, 27], [37, 38, 39]], v ≠ ([] : List Int)) ∧
    [[11, 12, 13], [24, 25, 26, 27], [37, 38, (39 : Int)]].length ≤ SIZE_MAX ∧
    (([[11, 12, 13], [24, 25, 26, 27], [37, 38, (39 : Int)]]).map List.length).sum ≤ 10 ∧
    (∃ processed sf,
      processLoop 10 (addAll (new 0) [[11, 12, 13], [24, 25, 26, 27], [37, 38, 39]])
        = some (.ok (processed,
            (([[11, 12, 13], [24, 25, 26, 27], [37, 38, (39 : Int)]]).map List.length).sum,
            sf)) ∧
      processed.length
        = (([[11, 12, 13], [24, 25, 26, 27], [37, 38, (39 : Int)]]).map List.length).sum ∧
      sf.items_ = [] ∧ empty sf = true ∧
      ∀ v ∈ [[11, 12, 13], [24, 25, 26, 27], [37, 38, (39 : Int)]],
        v.reverse.Sublist processed) ∧
    processLoop 10 (addAll (new 0) [[11, 12, 13], [24, 25, 26, 27], [37, 38, 39]])
      = some (.ok ([39, 27, 13, 38, 26, 12, 37, 25, 11, 24], 10,
          { items_ := [], current_ := .before_begin, count_ := 0, heap_ := 3 })) :=
  ⟨by decide, by decide, by decide,
    C14_vector_processing 0 [[11, 12, 13], [24, 25, 26, 27], [37, 38, 39]] (by decide)
      (by decide) 10 (by decide)⟩

end rr
